import Mathlib

/-!
Verification of the claude-file-recovery recovery engine.

This file gives a shallow embedding, in Lean 4, of the core data model and
algorithms of the repository (`src/claude_recovery/core` and
`src/claude_file_recovery/core`): the operation model, the replay /
reconstruction algorithm with Read-range splicing, the no-op Edit filters,
the symlink-alias merge, the injected-content stripper, and the timestamp
bisection used for time-travel queries.  Python strings are modelled as Lean
`String` (operating on `String.data : List Char`), Python `None` as `Option`,
and Python lists as Lean lists.  Each claim about the specification is then
settled by a theorem about these definitions.
-/

namespace ClaudeRecovery

/-- `OpType` from `core/models.py`: the closed enumeration of operation kinds. -/
inductive OpType where
  | writeCreate
  | writeUpdate
  | edit
  | read
  | fileHistory
deriving DecidableEq, Repr, Inhabited

/-- `FileOperation` from `core/models.py`: a single file-mutating or
file-reading operation extracted from a JSONL transcript.  Optional textual
and numeric fields are `Option`s, mirroring Python `None`. -/
structure FileOperation where
  type : OpType
  file_path : String
  timestamp : String
  session_id : String
  content : Option String := none
  original_file : Option String := none
  old_string : Option String := none
  new_string : Option String := none
  replace_all : Bool := false
  read_offset : Option Nat := none
  read_limit : Option Nat := none
  read_start_line : Option Nat := none
  read_num_lines : Option Nat := none
  read_total_lines : Option Nat := none
  is_error : Bool := false
  error_message : Option String := none
  tool_use_id : Option String := none
  is_subagent : Bool := false
  line_number : Nat := 0
  source_path : Option String := none
deriving DecidableEq, Repr

instance : Inhabited FileOperation :=
  ⟨{ type := OpType.read, file_path := "", timestamp := "", session_id := "" }⟩

/-- `RecoverableFile` from `core/models.py`: a file with all its operations. -/
structure RecoverableFile where
  path : String
  operations : List FileOperation := []
deriving DecidableEq, Repr

/-- `InjectedContentPattern` from `core/models.py`. -/
structure InjectedContentPattern where
  pattern_id : String
  content : String
  affected_op_count : Nat
  affected_file_count : Nat
  sample : String
  detection_method : String
deriving DecidableEq, Repr

/-! ### Python string primitives

Python `str.split("\n")`, `"\n".join`, `str.replace`, `str.find`, `str.rfind`
and `str.strip` are modelled over `List Char`. -/

/-- Python `s.split("\n")` on the character list: split at every line feed.
Always returns at least one (possibly empty) group. -/
def splitNl : List Char → List (List Char)
  | [] => [[]]
  | c :: rest =>
    match splitNl rest with
    | [] => [[]]
    | g :: gs => if c = '\n' then [] :: g :: gs else (c :: g) :: gs

/-- Python `"\n".join` on character lists. -/
def joinNl : List (List Char) → List Char
  | [] => []
  | [g] => g
  | g :: g2 :: gs => g ++ '\n' :: joinNl (g2 :: gs)

/-- `String`-level split on line feeds (Python `s.split("\n")`). -/
def splitNlStr (s : String) : List String :=
  (splitNl s.data).map String.mk

/-- `String`-level join with line feeds (Python `"\n".join(l)`). -/
def joinNlStr (l : List String) : String :=
  String.mk (joinNl (l.map String.data))

/-- Python `str.find`: index of the first occurrence of `pat` in `s`,
`none` when absent (Python returns `-1`). -/
def findSub (pat : List Char) : List Char → Option Nat
  | [] => if pat = [] then some 0 else none
  | c :: rest =>
    if pat.isPrefixOf (c :: rest) then some 0
    else (findSub pat rest).map (· + 1)

/-- Python `s in t` (substring containment), via `findSub`. -/
def containsSub (s pat : List Char) : Bool :=
  (findSub pat s).isSome

/-- Helper for Python `str.rfind`: the largest index `i ≤ n` at which `pat`
is a prefix of `s.drop i`, scanning from `n` downwards. -/
def rfindSubAux (s pat : List Char) : Nat → Option Nat
  | 0 => if pat.isPrefixOf s then some 0 else none
  | i + 1 =>
    if pat.isPrefixOf (s.drop (i + 1)) then some (i + 1)
    else rfindSubAux s pat i

/-- Python `str.rfind`: index of the last occurrence of `pat` in `s`,
`none` when absent. -/
def rfindSub (s pat : List Char) : Option Nat :=
  rfindSubAux s pat s.length

/-- Python `str.replace(old, new, 1)` for nonempty `old`: replace the first
occurrence only. -/
def replaceOnce (s old new : List Char) : List Char :=
  match findSub old s with
  | none => s
  | some i => s.take i ++ new ++ s.drop (i + old.length)

/-- Fuel-driven core of Python `str.replace(old, new)` (replace all
occurrences, scanning left to right, non-overlapping).  The fuel bounds the
recursion; `fuel ≥ s.length` is always sufficient because every step consumes
at least one character when `old` is nonempty. -/
def replaceAllGo (old new : List Char) : List Char → Nat → List Char
  | s, 0 => s
  | s, fuel + 1 =>
    match s with
    | [] => []
    | c :: rest =>
      if old ≠ [] ∧ old.isPrefixOf (c :: rest) then
        new ++ replaceAllGo old new ((c :: rest).drop old.length) fuel
      else
        c :: replaceAllGo old new rest fuel

/-- Python `str.replace(old, new)` (all occurrences) for nonempty `old`. -/
def pyReplaceAll (s old new : List Char) : List Char :=
  replaceAllGo old new s s.length

/-- Python whitespace characters recognised by `str.strip()` (ASCII range). -/
def pyIsSpace (c : Char) : Bool :=
  c = ' ' ∨ c = '\t' ∨ c = '\n' ∨ c = '\r' ∨ c = '\x0b' ∨ c = '\x0c'

/-- Python `str.rstrip()` on a character list. -/
def rstripChars (l : List Char) : List Char :=
  (l.reverse.dropWhile pyIsSpace).reverse

/-- Python `str.strip()` on a character list. -/
def stripChars (l : List Char) : List Char :=
  (rstripChars l).dropWhile pyIsSpace

/-- Python `str.rstrip()` on `String`. -/
def rstripStr (s : String) : String :=
  String.mk (rstripChars s.data)

/-- Python `str.strip()` on `String`. -/
def stripStr (s : String) : String :=
  String.mk (stripChars s.data)

/-- Python `<` on single characters: code-point comparison. -/
def pyCharLt (a b : Char) : Bool :=
  a.toNat < b.toNat

/-- Python `<` on strings (as character lists): lexicographic code-point
comparison, a proper prefix being smaller. -/
def charsLt : List Char → List Char → Bool
  | _, [] => false
  | [], _ :: _ => true
  | a :: as, b :: bs =>
    if pyCharLt a b then true
    else if pyCharLt b a then false
    else charsLt as bs

/-- Python `a < b` on strings. -/
def pyStrLt (a b : String) : Bool :=
  charsLt a.data b.data

/-! ### Replay / reconstructor (`core/reconstructor.py`) -/

/-- `apply_edit` from `core/reconstructor.py`: apply an Edit operation to
file content.  Empty `old_string` leaves the content unchanged; otherwise the
first occurrence (`replace_all = false`) or all occurrences
(`replace_all = true`) of `old_string` are replaced by `new_string`. -/
def apply_edit (content old_string new_string : String)
    (replace_all : Bool := false) : String :=
  if old_string = "" then content
  else if replace_all then
    String.mk (pyReplaceAll content.data old_string.data new_string.data)
  else
    String.mk (replaceOnce content.data old_string.data new_string.data)

/-- Python `a or b` on optional integers: `a` when it is a nonzero number,
otherwise `b` (both `None` and `0` are falsy). -/
def pyOrNum (a b : Option Nat) : Option Nat :=
  match a with
  | some n => if n = 0 then b else some n
  | none => b

/-- Python `a or d` where `a` is an optional integer and `d` a number:
`total_lines or (start + len(new_lines))` in `splice_read`. -/
def pyOrD (a : Option Nat) (d : Nat) : Nat :=
  match a with
  | some n => if n = 0 then d else n
  | none => d

/-- `splice_read` from `core/reconstructor.py`: splice partial Read content
into existing content at the correct line positions, growing the line array
with empty lines when the file is longer than the existing content.
`num_lines` is accepted (as in the source signature) but unused. -/
def splice_read (existing : Option String) (new_content : String)
    (start_line num_lines total_lines : Option Nat) : String :=
  let new_lines := splitNlStr new_content
  let start : Nat :=
    match start_line with
    | some n => if n = 0 then 0 else n - 1
    | none => 0
  let lines : List String :=
    match existing with
    | none => List.replicate (pyOrD total_lines (start + new_lines.length)) ""
    | some e =>
      let lines0 := splitNlStr e
      let target_len := pyOrD total_lines (start + new_lines.length)
      if lines0.length < target_len then
        lines0 ++ List.replicate (target_len - lines0.length) ""
      else lines0
  let _ := num_lines
  joinNlStr (lines.take start ++ new_lines ++ lines.drop (start + new_lines.length))

/-- Whether `reconstruct_file_at` treats a Read operation as full: response
metadata wins when available (`read_start_line == 1 ∧ read_num_lines ==
read_total_lines`), otherwise the request parameters must both be unset. -/
def readIsFull (op : FileOperation) : Bool :=
  match op.read_start_line with
  | some sl => sl = 1 ∧ op.read_num_lines = op.read_total_lines
  | none => op.read_offset = none ∧ op.read_limit = none

/-- One step of the replay loop in `reconstruct_file_at`
(`core/reconstructor.py`, lines 61–117): the effect of a single operation on
the running `content` state.  Note that the source performs no `is_error`
check — errored operations go through the same branches. -/
def reconStep (content : Option String) (op : FileOperation) : Option String :=
  match op.type with
  | OpType.writeCreate => op.content
  | OpType.writeUpdate => op.content
  | OpType.read =>
    match op.content with
    | none => content
    | some c =>
      if readIsFull op then some c
      else
        some (splice_read content c (pyOrNum op.read_start_line op.read_offset)
          op.read_num_lines op.read_total_lines)
  | OpType.fileHistory =>
    match op.content with
    | none => content
    | some c => some c
  | OpType.edit =>
    let c1 : Option String :=
      match op.original_file with
      | some o => some o
      | none => content
    match c1, op.old_string, op.new_string with
    | some c, some o, some n => some (apply_edit c o n op.replace_all)
    | _, _, _ => c1

/-- `reconstruct_file_at` from `core/reconstructor.py`: replay operations
`0 … up_to_index` (inclusive) and return the content state, `none` when no
content could be reconstructed. -/
def reconstruct_file_at (operations : List FileOperation) (up_to_index : Nat) :
    Option String :=
  (operations.take (up_to_index + 1)).foldl reconStep none

/-- `reconstruct_latest` from `core/reconstructor.py`. -/
def reconstruct_latest (file : RecoverableFile) : Option String :=
  if file.operations = [] then none
  else reconstruct_file_at file.operations (file.operations.length - 1)

/-- Fuel-driven binary-search loop of Python `bisect.bisect_right`:
`lo`/`hi` bracket the search; out-of-range reads return `""` (never reached
while `hi ≤ a.length`). -/
def bisectGo (a : List String) (x : String) : Nat → Nat → Nat → Nat
  | 0, lo, _ => lo
  | fuel + 1, lo, hi =>
    if lo < hi then
      let mid := (lo + hi) / 2
      if pyStrLt x (a.getD mid "") then bisectGo a x fuel lo mid
      else bisectGo a x fuel (mid + 1) hi
    else lo

/-- Python `bisect.bisect_right(a, x)`: the insertion point after any
entries equal to `x` (for a sorted list, the number of elements `≤ x`). -/
def bisectRight (a : List String) (x : String) : Nat :=
  bisectGo a x (a.length + 1) 0 a.length

/-- `reconstruct_at_timestamp` from `core/reconstructor.py`: find the last
operation with `timestamp ≤ before_ts` by `bisect_right` and replay up to it;
`none` when the timeline is empty or every operation is after the cutoff
(the source computes `idx = bisect_right(...) - 1` and tests `idx < 0`,
which is exactly the `k = 0` test below). -/
def reconstruct_at_timestamp (file : RecoverableFile) (before_ts : String) :
    Option String :=
  if file.operations = [] then none
  else
    let timestamps := file.operations.map (fun op => op.timestamp)
    let k := bisectRight timestamps before_ts
    if k = 0 then none
    else reconstruct_file_at file.operations (k - 1)

/-! ### Derived accessors of `RecoverableFile` (`core/models.py`) -/

/-- `RecoverableFile.latest_timestamp`: maximum operation timestamp, or the
empty string for an empty timeline (Python
`max(...) if self.operations else ""`). -/
def RecoverableFile.latest_timestamp (rf : RecoverableFile) : String :=
  match rf.operations with
  | [] => ""
  | op :: rest =>
    (rest.map (fun o => o.timestamp)).foldl
      (fun acc t => if pyStrLt acc t then t else acc) op.timestamp

/-- `RecoverableFile.has_full_content`: whether some operation is a Write, a
FileHistory snapshot, or a Read with neither `read_offset` nor `read_limit`
set (the source checks only the request-side parameters). -/
def RecoverableFile.has_full_content (rf : RecoverableFile) : Bool :=
  rf.operations.any (fun op =>
    (op.type = OpType.writeCreate ∨ op.type = OpType.writeUpdate ∨
      op.type = OpType.fileHistory) ∨
    (op.type = OpType.read ∧ op.read_offset = none ∧ op.read_limit = none))

/-! ### No-op Edit elimination (`core/scanner.py`) -/

/-- `_is_noop_edit` from `core/scanner.py`: fast field-level check whether an
Edit operation would produce no actual change.  Errored Edits are kept. -/
def is_noop_edit (op : FileOperation) : Bool :=
  if op.type ≠ OpType.edit then false
  else if op.is_error then false
  else
    match op.old_string, op.new_string with
    | none, _ => true
    | some _, none => true
    | some ol, some n =>
      if ol = "" then true
      else if ol = n then true
      else
        match op.original_file with
        | some orig => if ¬ containsSub orig.data ol.data then true else false
        | none => false

/-- The field-level filter applied at the end of `scan_session`
(`return [op for op in ops if not _is_noop_edit(op)]`). -/
def filterFieldNoops (ops : List FileOperation) : List FileOperation :=
  ops.filter (fun op => ! is_noop_edit op)

/-- The running-content update performed by `_filter_noop_edits_by_replay`:
identical to the reconstructor's step except that errored Edits leave the
state untouched (`continue` in the source). -/
def filterReplayState (content : Option String) (op : FileOperation) :
    Option String :=
  if op.type = OpType.edit ∧ op.is_error = true then content
  else reconStep content op

/-- `_filter_noop_edits_by_replay` from `core/scanner.py`, written as a
recursion over the operation list with the running reconstructed `content` as
accumulator.  The non-Edit branches update the content exactly as the
reconstructor does (the source mirrors the reconstructor's logic) and always
keep the operation; errored Edits are kept without touching the content;
non-errored Edits are kept only when their before/after states differ. -/
def filterReplayAux (content : Option String) :
    List FileOperation → List FileOperation
  | [] => []
  | op :: rest =>
    match op.type with
    | OpType.writeCreate => op :: filterReplayAux op.content rest
    | OpType.writeUpdate => op :: filterReplayAux op.content rest
    | OpType.read => op :: filterReplayAux (reconStep content op) rest
    | OpType.fileHistory => op :: filterReplayAux (reconStep content op) rest
    | OpType.edit =>
      if op.is_error then op :: filterReplayAux content rest
      else
        match op.original_file with
        | some o =>
          let after :=
            match op.old_string, op.new_string with
            | some ol, some n => apply_edit o ol n op.replace_all
            | _, _ => o
          if after ≠ o then op :: filterReplayAux (some after) rest
          else filterReplayAux (some after) rest
        | none =>
          let c' : Option String :=
            match content, op.old_string, op.new_string with
            | some c, some ol, some n => some (apply_edit c ol n op.replace_all)
            | _, _, _ => content
          if c' ≠ content then op :: filterReplayAux c' rest
          else filterReplayAux c' rest

/-- `_filter_noop_edits_by_replay(operations)`: the filter starts with an
unknown (`None`) content state. -/
def filter_noop_edits_by_replay (operations : List FileOperation) :
    List FileOperation :=
  filterReplayAux none operations

/-- The "before" state of an Edit as the spec describes it: `original_file`
when present, the running reconstructed content otherwise. -/
def editBefore (content : Option String) (op : FileOperation) : Option String :=
  match op.original_file with
  | some o => some o
  | none => content

/-- The "after" state of an Edit as the spec describes it: the "before"
state with the replacement applied when the content and both strings are
present. -/
def editAfter (content : Option String) (op : FileOperation) : Option String :=
  match editBefore content op, op.old_string, op.new_string with
  | some c, some ol, some n => some (apply_edit c ol n op.replace_all)
  | b, _, _ => b

/-- Whether the replay-level pass drops an operation, in the spec's words: a
non-errored Edit whose state before applying equals the state after. -/
def dropEditByReplay (content : Option String) (op : FileOperation) : Prop :=
  op.type = OpType.edit ∧ op.is_error = false ∧
    editAfter content op = editBefore content op

instance (content : Option String) (op : FileOperation) :
    Decidable (dropEditByReplay content op) := by
  unfold dropEditByReplay; infer_instance

/-- Modelled from the spec: the replay-level no-op filter as §4.C4 words it —
"walk the timeline maintaining a reconstructed content.  For each Edit,
compare the state before applying to the state after; if identical, drop the
Edit"; errored Edits and all other operations are kept.  Used only to be
compared against `filterReplayAux`, which is translated from the source. -/
def filterByReplaySpec (content : Option String) :
    List FileOperation → List FileOperation
  | [] => []
  | op :: rest =>
    (if dropEditByReplay content op then [] else [op]) ++
      filterByReplaySpec (filterReplayState content op) rest

/-! ### Symlink alias merge (`core/symlinks/merge.py`, `symlinks/models.py`) -/

/-- `SymlinkGroup` from `core/symlinks/models.py` (the `detection_methods`
dict is modelled as an association list). -/
structure SymlinkGroup where
  canonical : String
  aliases : List String := []
  detection_methods : List (String × String) := []
deriving DecidableEq, Repr

/-- Lookup in an association list built by repeated Python dict assignment:
the last binding of a key wins. -/
def lookupLast (l : List (String × String)) (k : String) : Option String :=
  match l with
  | [] => none
  | (k', v) :: rest =>
    match lookupLast rest k with
    | some r => some r
    | none => if k' = k then some v else none

/-- The key sequence of a Python dict built from these assignments: each key
once, in first-assignment order. -/
def dictKeys (l : List (String × String)) : List String :=
  (l.map Prod.fst).eraseDups

/-- Whether `path` matches `alias` in `resolve_path`:
`path == alias or path.startswith(alias + "/")`. -/
def aliasMatches (al path : String) : Bool :=
  path = al || (al.data ++ ['/']).isPrefixOf path.data

/-- Python `path[n:]` (drop the first `n` characters). -/
def strDropChars (s : String) (n : Nat) : String :=
  String.mk (s.data.drop n)

/-- `resolve_path` from `merge_file_index`: find the first (hence longest)
matching alias in `sorted_aliases` and rewrite the prefix to the canonical
path, returning the original path alongside; otherwise return the path with
`none`. -/
def resolve_path (sorted_aliases : List String)
    (alias_to_canonical : List (String × String)) (path : String) :
    String × Option String :=
  match sorted_aliases.find? (fun al => aliasMatches al path) with
  | some al =>
    ((lookupLast alias_to_canonical al).getD "" ++
      strDropChars path al.data.length, some path)
  | none => (path, none)

/-- The sort key used throughout the scanner and merger:
`(timestamp, session_id, line_number)`, compared lexicographically. -/
def opKeyLe (a b : FileOperation) : Prop :=
  pyStrLt a.timestamp b.timestamp = true ∨
    (a.timestamp = b.timestamp ∧
      (pyStrLt a.session_id b.session_id = true ∨
        (a.session_id = b.session_id ∧ a.line_number ≤ b.line_number)))

instance (a b : FileOperation) : Decidable (opKeyLe a b) := by
  unfold opKeyLe; infer_instance

/-- `operations.sort(key=lambda o: (o.timestamp, o.session_id, o.line_number))`. -/
def sortOpsByKey (ops : List FileOperation) : List FileOperation :=
  ops.mergeSort (fun a b => decide (opKeyLe a b))

/-- Insertion of a timeline's operations under a key of the new index:
`new_index[canonical_path] = RecoverableFile(path=canonical_path)` when the
key is new (appended in dict insertion order), then the operations are
appended to the entry's list. -/
def addOpsToIndex (idx : List (String × RecoverableFile)) (key : String)
    (ops : List FileOperation) : List (String × RecoverableFile) :=
  match idx with
  | [] => [(key, { path := key, operations := ops })]
  | (k, rf) :: rest =>
    if k = key then (k, { rf with operations := rf.operations ++ ops }) :: rest
    else (k, rf) :: addOpsToIndex rest key ops

/-- The per-operation rewrite in the merge loop: `op.source_path = original`
when the timeline's path was resolved through an alias. -/
def setSourcePath (original : Option String) (op : FileOperation) :
    FileOperation :=
  match original with
  | some orig => { op with source_path := some orig }
  | none => op

/-- The `alias_to_canonical` dict of `merge_file_index`, as the list of its
assignments in order. -/
def aliasToCanonical (groups : List SymlinkGroup) : List (String × String) :=
  groups.flatMap (fun g => g.aliases.map (fun a => (a, g.canonical)))

/-- The `sorted_aliases` list of `merge_file_index`: the dict's keys sorted
longest-first, so the most specific alias matches first. -/
def sortedAliases (groups : List SymlinkGroup) : List String :=
  (dictKeys (aliasToCanonical groups)).mergeSort (fun a b => b.length ≤ a.length)

/-- One iteration of the merge loop of `merge_file_index`: resolve the
entry's path and append its (possibly source-path-annotated) operations under
the canonical key. -/
def mergeStep (groups : List SymlinkGroup)
    (acc : List (String × RecoverableFile)) (pr : String × RecoverableFile) :
    List (String × RecoverableFile) :=
  addOpsToIndex acc (resolve_path (sortedAliases groups) (aliasToCanonical groups) pr.1).1
    (pr.2.operations.map (setSourcePath
      (resolve_path (sortedAliases groups) (aliasToCanonical groups) pr.1).2))

/-- `merge_file_index` from `core/symlinks/merge.py`: build a new file index
with symlinked paths merged into canonical entries.  The file index is
modelled as an association list in dict insertion order. -/
def merge_file_index (file_index : List (String × RecoverableFile))
    (groups : List SymlinkGroup) : List (String × RecoverableFile) :=
  let new_index := file_index.foldl (mergeStep groups) []
  new_index.map (fun pr => (pr.1, { pr.2 with operations := sortOpsByKey pr.2.operations }))

/-! ### Injected-content stripping (`core/injection.py`) -/

/-- Search downwards from `e` for the largest index `< e` of a line whose
stripped text is nonempty — the `while end >= 0 and not lines[end].strip()`
walk of `_extract_trailing_block`, with the counter shifted by one so that
`0` encodes Python's `end = -1`. -/
def lastNonBlankAux (lines : List String) : Nat → Option Nat
  | 0 => none
  | e + 1 =>
    if stripStr (lines.getD e "") ≠ "" then some e
    else lastNonBlankAux lines e

/-- The `while start > 0 and lines[start - 1].strip()` walk of
`_extract_trailing_block`: move `start` down while the preceding line is
non-blank. -/
def findStartAux (lines : List String) : Nat → Nat
  | 0 => 0
  | s + 1 =>
    if stripStr (lines.getD s "") ≠ "" then findStartAux lines s
    else s + 1

/-- `_extract_trailing_block` from `core/injection.py`: the last
blank-line-separated block of the content, `none` when the content has no
earlier blank line separator. -/
def extract_trailing_block (content : String) : Option String :=
  let lines := splitNlStr (rstripStr content)
  match lastNonBlankAux lines lines.length with
  | none => none
  | some e =>
    let start := findStartAux lines e
    if start = 0 then none
    else if stripStr (lines.getD (start - 1) "") ≠ "" then none
    else some (stripStr (joinNlStr ((lines.drop start).take (e + 1 - start))))

/-- The per-content action of `strip_injected_content`: when the trailing
block is present, nonempty (Python `not trailing`) and matches a reported
pattern, truncate at its last occurrence and right-trim; otherwise leave the
content unchanged (the `idx >= 0` guard mirrors Python `str.rfind`). -/
def stripOpContent (pattern_strings : List String) (c : String) : String :=
  match extract_trailing_block c with
  | none => c
  | some t =>
    if t = "" then c
    else if t ∈ pattern_strings then
      match rfindSub c.data t.data with
      | some i => rstripStr (String.mk (c.data.take i))
      | none => c
    else c

/-- The per-operation action of `strip_injected_content`: only Read
operations with truthy (present, nonempty) content are touched. -/
def stripInjOp (pattern_strings : List String) (op : FileOperation) :
    FileOperation :=
  if op.type = OpType.read then
    match op.content with
    | some c =>
      if c = "" then op
      else { op with content := some (stripOpContent pattern_strings c) }
    | none => op
  else op

/-- `strip_injected_content` from `core/injection.py` on the file index (the
returned modified-operation count is not modelled).  With no patterns the
index is returned unchanged (`return 0` early exit). -/
def strip_injected_content (files : List (String × RecoverableFile))
    (patterns : List InjectedContentPattern) : List (String × RecoverableFile) :=
  if patterns = [] then files
  else
    let pattern_strings := patterns.map (fun p => p.content)
    files.map (fun pr =>
      (pr.1, { pr.2 with operations := pr.2.operations.map (stripInjOp pattern_strings) }))

/-! ### Claim-side predicates (worded from the spec, for comparison) -/

/-- The spec's full-Read criterion (§3 invariant 4, §4.C5): response metadata
says `start_line == 1 ∧ num_lines == total_lines`, or the response metadata is
absent and neither `read_offset` nor `read_limit` was set on the request. -/
def specFullRead (op : FileOperation) : Prop :=
  (op.read_start_line = some 1 ∧ op.read_num_lines = op.read_total_lines) ∨
  (op.read_start_line = none ∧ op.read_num_lines = none ∧
    op.read_total_lines = none ∧ op.read_offset = none ∧ op.read_limit = none)

/-- Modelled from the spec: `has_full_content` as the claim words it — some
operation is a Write, a FileHistory snapshot, or a full Read in the sense of
`specFullRead`.  Used only to be compared against
`RecoverableFile.has_full_content`, which is translated from the source. -/
def claimedHasFullContent (rf : RecoverableFile) : Prop :=
  ∃ op ∈ rf.operations,
    (op.type = OpType.writeCreate ∨ op.type = OpType.writeUpdate ∨
      op.type = OpType.fileHistory) ∨
    (op.type = OpType.read ∧ specFullRead op)

/-! ### Concrete timelines used by counterexamples and witnesses -/

/-- First partial Read of the spec's Scenario B: lines 3–4 of a 5-line file. -/
def scenBRead1 : FileOperation :=
  { type := OpType.read, file_path := "/f", timestamp := "10", session_id := "s",
    content := some "C\nD", read_start_line := some 3, read_num_lines := some 2,
    read_total_lines := some 5 }

/-- Second partial Read of the spec's Scenario B: lines 1–2 of a 5-line file. -/
def scenBRead2 : FileOperation :=
  { type := OpType.read, file_path := "/f", timestamp := "11", session_id := "s",
    content := some "A\nB", read_start_line := some 1, read_num_lines := some 2,
    read_total_lines := some 5 }

/-- The Scenario B timeline. -/
def scenBFile : RecoverableFile := { path := "/f", operations := [scenBRead1, scenBRead2] }

/-- A write of `"ab"`. -/
def abWriteOp : FileOperation :=
  { type := OpType.writeCreate, file_path := "/f", timestamp := "10",
    session_id := "s", content := some "ab" }

/-- An errored Edit (`a` → `x`) as the scanner produces it: the request-side
strings are set, `is_error` is marked from the tool result, and no
`original_file` is attached (error results carry none). -/
def erroredEditOp : FileOperation :=
  { type := OpType.edit, file_path := "/f", timestamp := "11", session_id := "s",
    old_string := some "a", new_string := some "x", is_error := true }

/-- A Read whose request was ranged (`offset`/`limit` set) but whose response
metadata certifies it covered the whole file (lines 1–5 of 5). -/
def rangedButFullRead : FileOperation :=
  { type := OpType.read, file_path := "/f", timestamp := "10", session_id := "s",
    content := some "x", read_offset := some 1, read_limit := some 100,
    read_start_line := some 1, read_num_lines := some 5,
    read_total_lines := some 5 }

/-- A file whose only operation is `rangedButFullRead`. -/
def rangedReadFile : RecoverableFile := { path := "/f", operations := [rangedButFullRead] }

/-! ### Lemmas about the string primitives -/

theorem findSub_some_spec (pat : List Char) :
    ∀ (s : List Char) (i : Nat), findSub pat s = some i →
      pat.isPrefixOf (s.drop i) = true ∧
      ∀ j, j < i → pat.isPrefixOf (s.drop j) = false := by
  intro s
  induction s with
  | nil =>
    intro i h
    unfold findSub at h
    by_cases hp : pat = []
    · rw [if_pos hp] at h
      obtain rfl : (0 : Nat) = i := Option.some.inj h
      subst hp
      exact ⟨rfl, fun j hj => absurd hj (Nat.not_lt_zero j)⟩
    · rw [if_neg hp] at h
      exact absurd h (by simp)
  | cons c rest ih =>
    intro i h
    unfold findSub at h
    cases hp : pat.isPrefixOf (c :: rest) with
    | true =>
      rw [hp] at h
      simp only [if_true] at h
      obtain rfl : (0 : Nat) = i := Option.some.inj h
      exact ⟨by simpa using hp, fun j hj => absurd hj (Nat.not_lt_zero j)⟩
    | false =>
      rw [hp] at h
      simp only [Bool.false_eq_true, if_false, Option.map_eq_some'] at h
      obtain ⟨i', hi', rfl⟩ := h
      obtain ⟨h1, h2⟩ := ih i' hi'
      refine ⟨by simpa using h1, ?_⟩
      intro j hj
      cases j with
      | zero => simpa using hp
      | succ j' => simpa using h2 j' (Nat.lt_of_succ_lt_succ hj)

theorem findSub_none_spec (pat : List Char) :
    ∀ (s : List Char), findSub pat s = none →
      ∀ j, pat.isPrefixOf (s.drop j) = false := by
  intro s
  induction s with
  | nil =>
    intro h j
    unfold findSub at h
    by_cases hp : pat = []
    · rw [if_pos hp] at h; exact absurd h (by simp)
    · rw [List.drop_nil]
      cases hq : pat.isPrefixOf [] with
      | true =>
        exfalso
        cases pat with
        | nil => exact hp rfl
        | cons a as => simp [List.isPrefixOf] at hq
      | false => rfl
  | cons c rest ih =>
    intro h j
    unfold findSub at h
    cases hp : pat.isPrefixOf (c :: rest) with
    | true => rw [hp] at h; simp at h
    | false =>
      rw [hp] at h
      simp only [Bool.false_eq_true, if_false, Option.map_eq_none'] at h
      cases j with
      | zero => simpa using hp
      | succ j' => simpa using ih h j'

theorem findSub_cons_eq (pat : List Char) (c : Char) (rest : List Char) :
    findSub pat (c :: rest) =
      if pat.isPrefixOf (c :: rest) then some 0
      else (findSub pat rest).map (· + 1) := rfl

theorem replaceAllGo_fuel_inv (old new : List Char) (hold : old ≠ []) :
    ∀ (n : Nat) (s : List Char), s.length ≤ n → ∀ f1 f2, s.length ≤ f1 → s.length ≤ f2 →
      replaceAllGo old new s f1 = replaceAllGo old new s f2 := by
  intro n
  induction n with
  | zero =>
    intro s hs f1 f2 h1 h2
    have hnil : s = [] := List.eq_nil_of_length_eq_zero (Nat.le_zero.mp hs)
    subst hnil
    cases f1 <;> cases f2 <;> rfl
  | succ n ih =>
    intro s hs f1 f2 h1 h2
    cases s with
    | nil => cases f1 <;> cases f2 <;> rfl
    | cons c rest =>
      obtain ⟨f1', rfl⟩ : ∃ k, f1 = k + 1 := ⟨f1 - 1, by simp at h1; omega⟩
      obtain ⟨f2', rfl⟩ : ∃ k, f2 = k + 1 := ⟨f2 - 1, by simp at h2; omega⟩
      have hrest1 : rest.length ≤ f1' := by simp at h1; omega
      have hrest2 : rest.length ≤ f2' := by simp at h2; omega
      have hrestn : rest.length ≤ n := by simp at hs; omega
      have holdlen : 1 ≤ old.length := by
        cases old with
        | nil => exact absurd rfl hold
        | cons a as => simp
      simp only [replaceAllGo]
      by_cases hp : old.isPrefixOf (c :: rest) = true
      · rw [if_pos ⟨hold, hp⟩, if_pos ⟨hold, hp⟩]
        have hdrop : ((c :: rest).drop old.length).length ≤ rest.length := by
          simp only [List.length_drop, List.length_cons]
          omega
        have := ih ((c :: rest).drop old.length) (le_trans hdrop hrestn) f1' f2'
          (le_trans hdrop hrest1) (le_trans hdrop hrest2)
        rw [this]
      · have hp' : ¬ (old ≠ [] ∧ old.isPrefixOf (c :: rest) = true) := fun h => hp h.2
        rw [if_neg hp', if_neg hp']
        rw [ih rest hrestn f1' f2' hrest1 hrest2]

theorem replaceAllGo_eq_pyReplaceAll (old new : List Char) (hold : old ≠ [])
    (s : List Char) (fuel : Nat) (hf : s.length ≤ fuel) :
    replaceAllGo old new s fuel = pyReplaceAll s old new :=
  replaceAllGo_fuel_inv old new hold (max s.length fuel) s (le_max_left _ _)
    fuel s.length hf (le_refl _)

theorem pyReplaceAll_eq_findSub (old new : List Char) (hold : old ≠ []) :
    ∀ (s : List Char),
      pyReplaceAll s old new =
        match findSub old s with
        | none => s
        | some i => s.take i ++ new ++ pyReplaceAll (s.drop (i + old.length)) old new := by
  intro s
  induction s with
  | nil =>
    have h0 : findSub old [] = none := by
      unfold findSub
      rw [if_neg hold]
    rw [h0]
    rfl
  | cons c rest ih =>
    have holdlen : 1 ≤ old.length := by
      cases old with
      | nil => exact absurd rfl hold
      | cons a as => simp
    have hgo : pyReplaceAll (c :: rest) old new =
        replaceAllGo old new (c :: rest) (rest.length + 1) := by
      unfold pyReplaceAll
      simp
    rw [hgo]
    simp only [replaceAllGo]
    by_cases hp : old.isPrefixOf (c :: rest) = true
    · rw [if_pos ⟨hold, hp⟩]
      have hfind : findSub old (c :: rest) = some 0 := by
        rw [findSub_cons_eq, if_pos hp]
      rw [hfind]
      simp only [List.take_zero, List.nil_append, Nat.zero_add]
      have hdroplen : ((c :: rest).drop old.length).length ≤ rest.length := by
        simp only [List.length_drop, List.length_cons]
        omega
      rw [replaceAllGo_eq_pyReplaceAll old new hold _ _ hdroplen]
    · have hp' : ¬ (old ≠ [] ∧ old.isPrefixOf (c :: rest) = true) := fun h => hp h.2
      rw [if_neg hp']
      have hfind : findSub old (c :: rest) = (findSub old rest).map (· + 1) := by
        rw [findSub_cons_eq, if_neg hp]
      rw [hfind]
      rw [replaceAllGo_eq_pyReplaceAll old new hold rest rest.length (le_refl _)]
      rw [ih]
      cases hr : findSub old rest with
      | none => simp
      | some i' =>
        simp only [Option.map_some']
        have ht : (c :: rest).take (i' + 1) = c :: rest.take i' := rfl
        have hd : (c :: rest).drop (i' + 1 + old.length) = rest.drop (i' + old.length) := by
          have he : i' + 1 + old.length = (i' + old.length) + 1 := by omega
          rw [he]
          rfl
        rw [ht, hd]
        simp

/-! ### Lemmas about the string comparison -/

/-- `charsLt` is transitive. -/
theorem charsLt_trans : ∀ (a b c : List Char),
    charsLt a b = true → charsLt b c = true → charsLt a c = true := by
  intro a
  induction a with
  | nil =>
    intro b c hab hbc
    cases c with
    | nil =>
      cases b with
      | nil => cases hab
      | cons y ys => cases hbc
    | cons z zs => rfl
  | cons x xs ih =>
    intro b c hab hbc
    cases b with
    | nil => cases hab
    | cons y ys =>
      cases c with
      | nil => cases hbc
      | cons z zs =>
        simp only [charsLt] at hab hbc ⊢
        by_cases hxy : pyCharLt x y = true
        · by_cases hyz : pyCharLt y z = true
          · rw [if_pos (by
              simp only [pyCharLt, decide_eq_true_eq] at hxy hyz ⊢
              omega)]
          · rw [if_neg hyz] at hbc
            by_cases hzy : pyCharLt z y = true
            · rw [if_pos hzy] at hbc; cases hbc
            · -- y = z at char level
              have : pyCharLt x z = true := by
                simp only [pyCharLt, decide_eq_true_eq, decide_eq_false_iff_not] at hxy hyz hzy ⊢
                omega
              rw [if_pos this]
        · rw [if_neg hxy] at hab
          by_cases hyx : pyCharLt y x = true
          · rw [if_pos hyx] at hab; cases hab
          · rw [if_neg hyx] at hab
            by_cases hyz : pyCharLt y z = true
            · have : pyCharLt x z = true := by
                simp only [pyCharLt, decide_eq_true_eq, decide_eq_false_iff_not] at hxy hyx hyz ⊢
                omega
              rw [if_pos this]
            · rw [if_neg hyz] at hbc
              by_cases hzy : pyCharLt z y = true
              · rw [if_pos hzy] at hbc; cases hbc
              · rw [if_neg hzy] at hbc
                have h1 : pyCharLt x z = false := by
                  simp only [pyCharLt, decide_eq_true_eq, decide_eq_false_iff_not] at hxy hyx hyz hzy ⊢
                  omega
                have h2 : pyCharLt z x = false := by
                  simp only [pyCharLt, decide_eq_true_eq, decide_eq_false_iff_not] at hxy hyx hyz hzy ⊢
                  omega
                rw [if_neg (by simp [h1]), if_neg (by simp [h2])]
                exact ih ys zs hab hbc

/-- `charsLt` is connex: two mutually non-smaller strings are equal. -/
theorem charsLt_connex : ∀ (a b : List Char),
    charsLt a b = false → charsLt b a = false → a = b := by
  intro a
  induction a with
  | nil =>
    intro b hab _
    cases b with
    | nil => rfl
    | cons y ys => cases hab
  | cons x xs ih =>
    intro b hab hba
    cases b with
    | nil => cases hba
    | cons y ys =>
      simp only [charsLt] at hab hba
      by_cases hxy : pyCharLt x y = true
      · rw [if_pos hxy] at hab; cases hab
      · rw [if_neg hxy] at hab
        by_cases hyx : pyCharLt y x = true
        · rw [if_pos hyx] at hba; cases hba
        · rw [if_neg hyx] at hab
          rw [if_neg hyx, if_neg hxy] at hba
          have hxyeq : x = y := by
            simp only [pyCharLt, decide_eq_true_eq, decide_eq_false_iff_not] at hxy hyx
            have hn : x.toNat = y.toNat := by omega
            have hv : x.val = y.val := UInt32.toNat.inj hn
            cases x; cases y; simp_all
          rw [hxyeq, ih ys hab hba]

/-! ## Claims -/

/-- C10: `latest_timestamp` on a `RecoverableFile` with an empty operations
list returns the empty string rather than failing; the accessor is total. -/
theorem c10_latest_timestamp_empty (p : String) :
    RecoverableFile.latest_timestamp { path := p, operations := [] } = "" := rfl

/-- C1 (code bug): `reconstruct_file_at` does **not** skip operations marked
`is_error` — replaying the timeline `[Write "ab", errored Edit a→x]` through
index 1 yields `"xb"`, i.e. the errored Edit mutated the reconstructed
content, contradicting the claim (and spec invariant 5). -/
theorem c1_errored_edit_mutates_replay :
    erroredEditOp.is_error = true ∧
    reconstruct_file_at [abWriteOp, erroredEditOp] 0 = some "ab" ∧
    reconstruct_file_at [abWriteOp, erroredEditOp] 1 = some "xb" := by
  decide

/-- C2 (counterexample): on the spec's Scenario B timeline — partial Reads of
lines 3–4 (`"C\nD"`) then lines 1–2 (`"A\nB"`) of a 5-line file —
`reconstruct_latest` does **not** return `"A\nB\n\nC\nD"` as claimed. -/
theorem c2_counterexample :
    reconstruct_latest scenBFile ≠ some "A\nB\n\nC\nD" := by
  decide

/-- C2 (amended): on that timeline `reconstruct_latest` returns
`"A\nB\nC\nD\n"` — the reads fill lines 1–4 and the unseen fifth line stays
empty, so the empty line is at the end, not between `"B"` and `"C"`. -/
theorem c2_amended_splice_result :
    reconstruct_latest scenBFile = some "A\nB\nC\nD\n" := by
  decide

/-- C5 (counterexample): a Read that is full according to the data-model
invariant (response metadata `start_line = 1 ∧ num_lines = total_lines`) but
whose request had `offset`/`limit` set makes the claimed characterisation
true while `has_full_content` is `false` — the source consults only the
request-side parameters. -/
theorem c5_counterexample :
    claimedHasFullContent rangedReadFile ∧
    RecoverableFile.has_full_content rangedReadFile = false := by
  constructor
  · exact ⟨rangedButFullRead, by simp [rangedReadFile], Or.inr ⟨rfl, Or.inl ⟨rfl, rfl⟩⟩⟩
  · decide

/-- C5 (amended): `has_full_content` is true iff some operation in the
timeline is a Write (create or update), a FileHistory snapshot, or a Read
with neither `read_offset` nor `read_limit` set on the request — the
response-side metadata is not consulted. -/
theorem c5_amended_has_full_content (rf : RecoverableFile) :
    RecoverableFile.has_full_content rf = true ↔
      ∃ op ∈ rf.operations,
        (op.type = OpType.writeCreate ∨ op.type = OpType.writeUpdate ∨
          op.type = OpType.fileHistory) ∨
        (op.type = OpType.read ∧ op.read_offset = none ∧ op.read_limit = none) := by
  simp [RecoverableFile.has_full_content, List.any_eq_true]

/-- C3: a full Read with content present at index `i` — full per the
data-model invariant: response metadata says `start_line = 1` and
`num_lines = total_lines`, or the response metadata is absent and neither
`read_offset` nor `read_limit` was set — makes `reconstruct_file_at(T, i)`
equal to that Read's content, regardless of all earlier operations. -/
theorem c3_full_read_authoritative (ops : List FileOperation) (i : Nat)
    (hi : i < ops.length) (c : String)
    (hread : (ops.get ⟨i, hi⟩).type = OpType.read)
    (hcontent : (ops.get ⟨i, hi⟩).content = some c)
    (hfull : specFullRead (ops.get ⟨i, hi⟩)) :
    reconstruct_file_at ops i = some c := by
  unfold reconstruct_file_at
  have htake : ops.take (i + 1) = ops.take i ++ [ops.get ⟨i, hi⟩] := by
    rw [List.take_succ]
    simp [List.getElem?_eq_getElem hi]
  rw [htake, List.foldl_append]
  set op := ops.get ⟨i, hi⟩ with hop
  simp only [List.foldl_cons, List.foldl_nil]
  have hfullb : readIsFull op = true := by
    rcases hfull with ⟨h1, h2⟩ | ⟨h1, h2, h3, h4, h5⟩
    · simp [readIsFull, h1, h2]
    · simp [readIsFull, h1, h4, h5]
  simp [reconStep, hread, hcontent, hfullb]

/-- A full Read (response metadata: lines 1–1 of 1) of content `"y"`. -/
def fullReadOp : FileOperation :=
  { type := OpType.read, file_path := "/f", timestamp := "12", session_id := "s",
    content := some "y", read_start_line := some 1, read_num_lines := some 1,
    read_total_lines := some 1 }

/-- Witness for C3: after a Write of `"ab"`, a full Read of `"y"` at index 1
reconstructs to `"y"`. -/
theorem c3_witness :
    reconstruct_file_at [abWriteOp, fullReadOp] 1 = some "y" :=
  c3_full_read_authoritative [abWriteOp, fullReadOp] 1 (by decide) "y"
    (by decide) (by decide) (Or.inl (by decide))

/-- C4: replaying an Edit first rebases onto `original_file` when present,
then applies the replacement when the content and both strings are present;
`apply_edit` is the identity on empty `old_string`, replaces exactly the
first occurrence (the decomposition at the minimal match index) when
`replace_all` is false, and replaces all occurrences (left-to-right
first-occurrence recursion) when `replace_all` is true. -/
theorem c4_edit_replay_semantics :
    (∀ (content : Option String) (op : FileOperation), op.type = OpType.edit →
      reconStep content op =
        match (match op.original_file with
               | some o => some o
               | none => content), op.old_string, op.new_string with
        | some c, some ol, some n => some (apply_edit c ol n op.replace_all)
        | b, _, _ => b)
    ∧ (∀ (c n : String) (b : Bool), apply_edit c "" n b = c)
    ∧ (∀ (c ol n : String), ol ≠ "" →
        (findSub ol.data c.data = none → apply_edit c ol n false = c) ∧
        (∀ i, findSub ol.data c.data = some i →
          apply_edit c ol n false =
            String.mk (c.data.take i ++ n.data ++ c.data.drop (i + ol.data.length)) ∧
          ol.data.isPrefixOf (c.data.drop i) = true ∧
          ∀ j, j < i → ol.data.isPrefixOf (c.data.drop j) = false))
    ∧ (∀ (c ol n : String), ol ≠ "" →
        (findSub ol.data c.data = none → apply_edit c ol n true = c) ∧
        (∀ i, findSub ol.data c.data = some i →
          (apply_edit c ol n true).data =
            c.data.take i ++ n.data ++ pyReplaceAll (c.data.drop (i + ol.data.length)) ol.data n.data)) := by
  have hdata : ∀ (x : String), x ≠ "" → x.data ≠ [] := by
    intro x hx h
    exact hx (by cases x; simp_all)
  refine ⟨?_, ?_, ?_, ?_⟩
  · intro content op h
    cases content <;> cases h1 : op.original_file <;> cases h2 : op.old_string <;>
      cases h3 : op.new_string <;> simp [reconStep, h, h1, h2, h3]
  · intro c n b
    simp [apply_edit]
  · intro c ol n hol
    have hold := hdata ol hol
    constructor
    · intro hnone
      simp only [apply_edit, if_neg hol, if_neg (by simp : ¬ (false = true))]
      rw [replaceOnce, hnone]
    · intro i hsome
      obtain ⟨hpre, hmin⟩ := findSub_some_spec ol.data c.data i hsome
      refine ⟨?_, hpre, hmin⟩
      simp only [apply_edit, if_neg hol, if_neg (by simp : ¬ (false = true))]
      rw [replaceOnce, hsome]
  · intro c ol n hol
    have hold := hdata ol hol
    constructor
    · intro hnone
      simp only [apply_edit, if_neg hol, if_pos rfl]
      rw [show pyReplaceAll c.data ol.data n.data = _ from pyReplaceAll_eq_findSub ol.data n.data hold c.data, hnone]
      rfl
    · intro i hsome
      simp only [apply_edit, if_neg hol, if_pos rfl]
      rw [show pyReplaceAll c.data ol.data n.data = _ from pyReplaceAll_eq_findSub ol.data n.data hold c.data, hsome]
      rfl

/-- A non-errored Edit (`a` → `x`) with no `original_file`. -/
def plainEditOp : FileOperation :=
  { type := OpType.edit, file_path := "/f", timestamp := "11", session_id := "s",
    old_string := some "a", new_string := some "x" }

/-- Witness for C4: each conjunct of `c4_edit_replay_semantics` applied at a
concrete input. -/
theorem c4_witness :
    reconStep (some "ab") plainEditOp = some (apply_edit "ab" "a" "x" false) ∧
    apply_edit "ab" "" "x" true = "ab" ∧
    apply_edit "abab" "ab" "c" false =
      String.mk (("abab".data.take 0) ++ "c".data ++ "abab".data.drop 2) ∧
    (apply_edit "abab" "ab" "c" true).data =
      "abab".data.take 0 ++ "c".data ++ pyReplaceAll ("abab".data.drop 2) "ab".data "c".data := by
  refine ⟨?_, c4_edit_replay_semantics.2.1 "ab" "x" true, ?_, ?_⟩
  · exact c4_edit_replay_semantics.1 (some "ab") plainEditOp rfl
  · exact ((c4_edit_replay_semantics.2.2.1 "abab" "ab" "c" (by decide)).2 0 (by decide)).1
  · exact (c4_edit_replay_semantics.2.2.2 "abab" "ab" "c" (by decide)).2 0 (by decide)

/-! ### The replay-level no-op filter matches its spec formulation -/

theorem reconStep_edit_eq_editAfter (content : Option String) (op : FileOperation)
    (h : op.type = OpType.edit) : reconStep content op = editAfter content op := by
  cases content <;> cases h1 : op.original_file <;> cases h2 : op.old_string <;>
    cases h3 : op.new_string <;>
      simp [reconStep, editAfter, editBefore, h, h1, h2, h3]

theorem filterByReplaySpec_cons (content : Option String) (op : FileOperation)
    (rest : List FileOperation) :
    filterByReplaySpec content (op :: rest) =
      (if dropEditByReplay content op then [] else [op]) ++
        filterByReplaySpec (filterReplayState content op) rest := rfl

theorem filterReplayAux_eq_spec :
    ∀ (ops : List FileOperation) (content : Option String),
      filterReplayAux content ops = filterByReplaySpec content ops := by
  intro ops
  induction ops with
  | nil => intro content; rfl
  | cons op rest ih =>
    intro content
    rw [filterByReplaySpec_cons]
    cases htype : op.type with
    | writeCreate =>
      have hnd : ¬ dropEditByReplay content op := fun hd => by
        simp [dropEditByReplay, htype] at hd
      rw [if_neg hnd]
      simp [filterReplayAux, filterReplayState, reconStep, htype, ih]
    | writeUpdate =>
      have hnd : ¬ dropEditByReplay content op := fun hd => by
        simp [dropEditByReplay, htype] at hd
      rw [if_neg hnd]
      simp [filterReplayAux, filterReplayState, reconStep, htype, ih]
    | read =>
      have hnd : ¬ dropEditByReplay content op := fun hd => by
        simp [dropEditByReplay, htype] at hd
      rw [if_neg hnd]
      simp [filterReplayAux, filterReplayState, htype, ih]
    | fileHistory =>
      have hnd : ¬ dropEditByReplay content op := fun hd => by
        simp [dropEditByReplay, htype] at hd
      rw [if_neg hnd]
      simp [filterReplayAux, filterReplayState, htype, ih]
    | edit =>
      cases herr : op.is_error with
      | true =>
        have hnd : ¬ dropEditByReplay content op := fun hd => by
          simp [dropEditByReplay, herr] at hd
        have hst : filterReplayState content op = content := by
          simp [filterReplayState, htype, herr]
        rw [if_neg hnd, hst]
        simp only [filterReplayAux, htype, herr, if_true, List.singleton_append]
        rw [ih]
      | false =>
        have hst : filterReplayState content op = reconStep content op := by
          simp [filterReplayState, htype, herr]
        rw [hst]
        cases horig : op.original_file with
        | some o =>
          cases h2 : op.old_string with
          | some ol =>
            cases h3 : op.new_string with
            | some n =>
              have hstep : reconStep content op =
                  some (apply_edit o ol n op.replace_all) := by
                simp [reconStep, htype, horig, h2, h3]
              rw [hstep]
              by_cases heq : apply_edit o ol n op.replace_all = o
              · have hd : dropEditByReplay content op := by
                  refine ⟨htype, herr, ?_⟩
                  simp [editAfter, editBefore, horig, h2, h3, heq]
                rw [if_pos hd]
                simp only [filterReplayAux, htype, herr, horig, h2, h3,
                  Bool.false_eq_true, if_false]
                rw [if_neg (by simpa using heq)]
                simp [ih, heq]
              · have hd : ¬ dropEditByReplay content op := fun hd => by
                  rcases hd with ⟨-, -, hd⟩
                  simp [editAfter, editBefore, horig, h2, h3] at hd
                  exact heq hd
                rw [if_neg hd]
                simp only [filterReplayAux, htype, herr, horig, h2, h3,
                  Bool.false_eq_true, if_false]
                rw [if_pos (by simpa using heq)]
                simp [ih]
            | none =>
              have hstep : reconStep content op = some o := by
                simp [reconStep, htype, horig, h2, h3]
              rw [hstep]
              have hd : dropEditByReplay content op := by
                refine ⟨htype, herr, ?_⟩
                simp [editAfter, editBefore, horig, h2, h3]
              rw [if_pos hd]
              simp only [filterReplayAux, htype, herr, horig, h2, h3,
                Bool.false_eq_true, if_false]
              simp [ih]
          | none =>
            have hstep : reconStep content op = some o := by
              simp [reconStep, htype, horig, h2]
            rw [hstep]
            have hd : dropEditByReplay content op := by
              refine ⟨htype, herr, ?_⟩
              simp [editAfter, editBefore, horig, h2]
            rw [if_pos hd]
            simp only [filterReplayAux, htype, herr, horig, h2,
              Bool.false_eq_true, if_false]
            simp [ih]
        | none =>
          cases content with
          | some c =>
            cases h2 : op.old_string with
            | some ol =>
              cases h3 : op.new_string with
              | some n =>
                have hstep : reconStep (some c) op =
                    some (apply_edit c ol n op.replace_all) := by
                  simp [reconStep, htype, horig, h2, h3]
                rw [hstep]
                by_cases heq : apply_edit c ol n op.replace_all = c
                · have hd : dropEditByReplay (some c) op := by
                    refine ⟨htype, herr, ?_⟩
                    simp [editAfter, editBefore, horig, h2, h3, heq]
                  rw [if_pos hd]
                  simp only [filterReplayAux, htype, herr, horig, h2, h3,
                    Bool.false_eq_true, if_false]
                  rw [if_neg (by simpa using heq)]
                  simp [ih, heq]
                · have hd : ¬ dropEditByReplay (some c) op := fun hd => by
                    rcases hd with ⟨-, -, hd⟩
                    simp [editAfter, editBefore, horig, h2, h3] at hd
                    exact heq hd
                  rw [if_neg hd]
                  simp only [filterReplayAux, htype, herr, horig, h2, h3,
                    Bool.false_eq_true, if_false]
                  rw [if_pos (by simpa using heq)]
                  simp [ih]
              | none =>
                have hstep : reconStep (some c) op = some c := by
                  simp [reconStep, htype, horig, h2, h3]
                rw [hstep]
                have hd : dropEditByReplay (some c) op := by
                  refine ⟨htype, herr, ?_⟩
                  simp [editAfter, editBefore, horig, h2, h3]
                rw [if_pos hd]
                simp only [filterReplayAux, htype, herr, horig, h2, h3,
                  Bool.false_eq_true, if_false]
                simp [ih]
            | none =>
              have hstep : reconStep (some c) op = some c := by
                simp [reconStep, htype, horig, h2]
              rw [hstep]
              have hd : dropEditByReplay (some c) op := by
                refine ⟨htype, herr, ?_⟩
                simp [editAfter, editBefore, horig, h2]
              rw [if_pos hd]
              simp only [filterReplayAux, htype, herr, horig, h2,
                Bool.false_eq_true, if_false]
              simp [ih]
          | none =>
            have hstep : reconStep none op = none := by
              cases h2 : op.old_string <;> cases h3 : op.new_string <;>
                simp [reconStep, htype, horig, h2, h3]
            rw [hstep]
            have hd : dropEditByReplay none op := by
              refine ⟨htype, herr, ?_⟩
              cases h2 : op.old_string <;> cases h3 : op.new_string <;>
                simp [editAfter, editBefore, horig, h2, h3]
            rw [if_pos hd]
            cases h2 : op.old_string <;> cases h3 : op.new_string <;>
              · simp only [filterReplayAux, htype, herr, horig, h2, h3,
                  Bool.false_eq_true, if_false]
                simp [ih]

theorem not_noop_of_mem_filterFieldNoops (ops : List FileOperation)
    (op : FileOperation) (hmem : op ∈ filterFieldNoops ops)
    (htype : op.type = OpType.edit) (herr : op.is_error = false) :
    op.old_string ≠ none ∧ op.old_string ≠ some "" ∧
    op.old_string ≠ op.new_string ∧
    (∀ orig ol, op.original_file = some orig → op.old_string = some ol →
      containsSub orig.data ol.data = true) := by
  have hno : is_noop_edit op = false := by
    have h := (List.mem_filter.mp hmem).2
    simpa using h
  simp only [is_noop_edit, htype, herr] at hno
  simp only [ne_eq, not_true_eq_false, if_false, Bool.false_eq_true] at hno
  cases h2 : op.old_string with
  | none => rw [h2] at hno; simp at hno
  | some ol =>
    cases h3 : op.new_string with
    | none => rw [h2, h3] at hno; simp at hno
    | some n =>
      rw [h2, h3] at hno
      simp only at hno
      by_cases hol0 : ol = ""
      · rw [if_pos hol0] at hno; cases hno
      · rw [if_neg hol0] at hno
        by_cases holn : ol = n
        · rw [if_pos holn] at hno; cases hno
        · rw [if_neg holn] at hno
          refine ⟨by simp, by simpa using hol0, by simpa using holn, ?_⟩
          intro orig ol' horig hol'
          obtain rfl : ol = ol' := Option.some.inj (h2 ▸ hol')
          rw [horig] at hno
          simpa using hno

theorem errored_mem_filterFieldNoops (ops : List FileOperation)
    (op : FileOperation) (hmem : op ∈ ops) (herr : op.is_error = true) :
    op ∈ filterFieldNoops ops := by
  refine List.mem_filter.mpr ⟨hmem, ?_⟩
  have h : is_noop_edit op = false := by
    by_cases ht : op.type = OpType.edit
    · simp [is_noop_edit, ht, herr]
    · simp [is_noop_edit, ht]
  simp [h]

theorem errored_edit_mem_spec :
    ∀ (ops : List FileOperation) (content : Option String) (op : FileOperation),
      op ∈ ops → op.is_error = true → op ∈ filterByReplaySpec content ops := by
  intro ops
  induction ops with
  | nil => intro content op h; simp at h
  | cons hd rest ih =>
    intro content op hmem herr
    rw [filterByReplaySpec_cons]
    rcases List.mem_cons.mp hmem with rfl | hmem'
    · have hnd : ¬ dropEditByReplay content op := fun hdd => by
        rcases hdd with ⟨-, h, -⟩
        rw [herr] at h
        cases h
      rw [if_neg hnd]
      exact List.mem_append_left _ (by simp)
    · exact List.mem_append_right _ (ih _ op hmem' herr)

/-- C6: the two no-op Edit filters. (1) After the field-level filter, every
surviving non-errored Edit has a present, nonempty `old_string` distinct from
`new_string`, contained in `original_file` whenever that is present;
(2) errored Edits pass the field-level filter; (3) the replay-level filter
equals the spec's formulation: walk the timeline maintaining a reconstructed
content and drop exactly the non-errored Edits whose before state
(`original_file` when present, the running content otherwise) equals their
after state; (4) errored Edits are kept by the replay-level filter. -/
theorem c6_noop_edit_removal :
    (∀ (ops : List FileOperation) (op : FileOperation),
        op ∈ filterFieldNoops ops → op.type = OpType.edit → op.is_error = false →
        op.old_string ≠ none ∧ op.old_string ≠ some "" ∧
        op.old_string ≠ op.new_string ∧
        (∀ orig ol, op.original_file = some orig → op.old_string = some ol →
          containsSub orig.data ol.data = true))
    ∧ (∀ (ops : List FileOperation) (op : FileOperation),
        op ∈ ops → op.is_error = true → op ∈ filterFieldNoops ops)
    ∧ (∀ (operations : List FileOperation),
        filter_noop_edits_by_replay operations = filterByReplaySpec none operations)
    ∧ (∀ (operations : List FileOperation) (op : FileOperation),
        op ∈ operations → op.type = OpType.edit → op.is_error = true →
        op ∈ filter_noop_edits_by_replay operations) := by
  refine ⟨not_noop_of_mem_filterFieldNoops, errored_mem_filterFieldNoops, ?_, ?_⟩
  · intro operations
    exact filterReplayAux_eq_spec operations none
  · intro operations op hmem htype herr
    unfold filter_noop_edits_by_replay
    rw [filterReplayAux_eq_spec]
    exact errored_edit_mem_spec operations none op hmem herr

/-- Witness for C6: each conjunct of `c6_noop_edit_removal` applied at a
concrete timeline. -/
theorem c6_witness :
    (plainEditOp.old_string ≠ none ∧ plainEditOp.old_string ≠ some "" ∧
      plainEditOp.old_string ≠ plainEditOp.new_string ∧
      (∀ orig ol, plainEditOp.original_file = some orig →
        plainEditOp.old_string = some ol → containsSub orig.data ol.data = true)) ∧
    erroredEditOp ∈ filterFieldNoops [erroredEditOp] ∧
    filter_noop_edits_by_replay [abWriteOp, plainEditOp] =
      filterByReplaySpec none [abWriteOp, plainEditOp] ∧
    erroredEditOp ∈ filter_noop_edits_by_replay [abWriteOp, erroredEditOp] :=
  ⟨c6_noop_edit_removal.1 [plainEditOp] plainEditOp (by decide) rfl rfl,
    c6_noop_edit_removal.2.1 [erroredEditOp] erroredEditOp (by decide) rfl,
    c6_noop_edit_removal.2.2.1 [abWriteOp, plainEditOp],
    c6_noop_edit_removal.2.2.2 [abWriteOp, erroredEditOp] erroredEditOp (by decide) rfl rfl⟩

/-! ### The timestamp bisection -/

theorem pyStrLt_lt_of_not_lt (x m i : String) (h1 : pyStrLt x m = true)
    (h2 : pyStrLt i m = false) : pyStrLt x i = true := by
  by_cases hxi : pyStrLt x i = true
  · exact hxi
  · exfalso
    by_cases hix : pyStrLt i x = true
    · have : pyStrLt i m = true := charsLt_trans _ _ _ hix h1
      rw [this] at h2
      cases h2
    · have heq : x.data = i.data :=
        charsLt_connex x.data i.data (by simpa [pyStrLt] using hxi)
          (by simpa [pyStrLt] using hix)
      have : pyStrLt i m = true := by
        unfold pyStrLt at h1 ⊢
        rw [← heq]
        exact h1
      rw [this] at h2
      cases h2

theorem pyStrLt_not_lt_trans (x m i : String) (h1 : pyStrLt x m = false)
    (h2 : pyStrLt m i = false) : pyStrLt x i = false := by
  by_cases hxi : pyStrLt x i = true
  · exfalso
    by_cases him : pyStrLt i m = true
    · have : pyStrLt x m = true := charsLt_trans _ _ _ hxi him
      rw [this] at h1
      cases h1
    · have heq : m.data = i.data :=
        charsLt_connex m.data i.data (by simpa [pyStrLt] using h2)
          (by simpa [pyStrLt] using him)
      have : pyStrLt x m = true := by
        unfold pyStrLt at hxi ⊢
        rw [heq]
        exact hxi
      rw [this] at h1
      cases h1
  · simpa using hxi

theorem bisectGo_spec (a : List String) (x : String)
    (hsorted : ∀ i j, i ≤ j → j < a.length →
      pyStrLt (a.getD j "") (a.getD i "") = false) :
    ∀ (fuel lo hi : Nat), hi ≤ a.length → lo ≤ hi → hi - lo < fuel →
      (∀ i, i < lo → pyStrLt x (a.getD i "") = false) →
      (∀ i, hi ≤ i → i < a.length → pyStrLt x (a.getD i "") = true) →
      lo ≤ bisectGo a x fuel lo hi ∧ bisectGo a x fuel lo hi ≤ hi ∧
      (∀ i, i < bisectGo a x fuel lo hi → pyStrLt x (a.getD i "") = false) ∧
      (∀ i, bisectGo a x fuel lo hi ≤ i → i < a.length →
        pyStrLt x (a.getD i "") = true) := by
  intro fuel
  induction fuel with
  | zero =>
    intro lo hi _ _ hfuel _ _
    exact absurd hfuel (by omega)
  | succ fuel ih =>
    intro lo hi hhi hlh hfuel hlow hhigh
    by_cases hlt : lo < hi
    · have hmid1 : lo ≤ (lo + hi) / 2 := by omega
      have hmid2 : (lo + hi) / 2 < hi := by omega
      simp only [bisectGo, if_pos hlt]
      by_cases hx : pyStrLt x (a.getD ((lo + hi) / 2) "") = true
      · rw [if_pos hx]
        have hhigh' : ∀ i, (lo + hi) / 2 ≤ i → i < a.length →
            pyStrLt x (a.getD i "") = true := by
          intro i hi1 hi2
          exact pyStrLt_lt_of_not_lt x (a.getD ((lo + hi) / 2) "") (a.getD i "")
            hx (hsorted ((lo + hi) / 2) i hi1 hi2)
        have := ih lo ((lo + hi) / 2) (by omega) hmid1 (by omega) hlow hhigh'
        exact ⟨this.1, by omega, this.2.2.1, this.2.2.2⟩
      · rw [if_neg hx]
        have hxf : pyStrLt x (a.getD ((lo + hi) / 2) "") = false := by
          simpa using hx
        have hlow' : ∀ i, i < (lo + hi) / 2 + 1 →
            pyStrLt x (a.getD i "") = false := by
          intro i hi1
          exact pyStrLt_not_lt_trans x (a.getD ((lo + hi) / 2) "") (a.getD i "")
            hxf (hsorted i ((lo + hi) / 2) (by omega) (by omega))
        have := ih ((lo + hi) / 2 + 1) hi hhi (by omega) (by omega) hlow' hhigh
        exact ⟨by omega, this.2.1, this.2.2.1, this.2.2.2⟩
    · simp only [bisectGo, if_neg hlt]
      have : lo = hi := by omega
      exact ⟨le_refl _, by omega, hlow, fun i hi1 hi2 => hhigh i (by omega) hi2⟩

theorem bisectRight_spec (a : List String) (x : String)
    (hsorted : ∀ i j, i ≤ j → j < a.length →
      pyStrLt (a.getD j "") (a.getD i "") = false) :
    bisectRight a x ≤ a.length ∧
    (∀ i, i < bisectRight a x → pyStrLt x (a.getD i "") = false) ∧
    (∀ i, bisectRight a x ≤ i → i < a.length → pyStrLt x (a.getD i "") = true) := by
  have := bisectGo_spec a x hsorted (a.length + 1) 0 a.length (le_refl _)
    (Nat.zero_le _) (by omega) (fun i hi => absurd hi (by omega))
    (fun i hi1 hi2 => absurd (lt_of_le_of_lt hi1 hi2) (by omega))
  exact ⟨this.2.1, this.2.2.1, this.2.2.2⟩

theorem charsLt_irrefl : ∀ (a : List Char), charsLt a a = false := by
  intro a
  induction a with
  | nil => rfl
  | cons x xs ih =>
    simp only [charsLt]
    have h : pyCharLt x x = false := by
      simp [pyCharLt]
    rw [if_neg (by simp [h]), if_neg (by simp [h])]
    exact ih

theorem timestamps_sorted_of_pairwise (ops : List FileOperation)
    (hs : List.Pairwise opKeyLe ops) :
    ∀ i j, i ≤ j → j < (ops.map (fun op => op.timestamp)).length →
      pyStrLt ((ops.map (fun op => op.timestamp)).getD j "")
        ((ops.map (fun op => op.timestamp)).getD i "") = false := by
  intro i j hij hj
  rw [List.length_map] at hj
  have hi : i < ops.length := lt_of_le_of_lt hij hj
  have hgetj : (ops.map (fun op => op.timestamp)).getD j "" =
      (ops.get ⟨j, hj⟩).timestamp := by
    simp [List.getD_eq_getElem?_getD, List.getElem?_eq_getElem hj]
  have hgeti : (ops.map (fun op => op.timestamp)).getD i "" =
      (ops.get ⟨i, hi⟩).timestamp := by
    simp [List.getD_eq_getElem?_getD, List.getElem?_eq_getElem hi]
  rw [hgetj, hgeti]
  rcases Nat.lt_or_ge i j with hlt | hge
  · have hkey := List.pairwise_iff_get.mp hs ⟨i, hi⟩ ⟨j, hj⟩ hlt
    rcases hkey with hts | ⟨heq, -⟩
    · by_cases hrev : pyStrLt (ops.get ⟨j, hj⟩).timestamp (ops.get ⟨i, hi⟩).timestamp = true
      · have := charsLt_trans _ _ _ hts hrev
        rw [charsLt_irrefl] at this
        cases this
      · simpa using hrev
    · rw [heq]
      exact charsLt_irrefl _
  · have : i = j := by omega
    subst this
    exact charsLt_irrefl _

/-- C7: on a timeline sorted by `(timestamp, session_id, line_number)`,
`reconstruct_at_timestamp` returns `none` when the timeline is empty or every
operation's timestamp is strictly greater than the cutoff, and otherwise
replays up to the largest index whose timestamp is `≤` the cutoff
(lexicographic string comparison): for any `j` that is largest with
`timestamp ≤ cutoff`, the result is `reconstruct_file_at(operations, j)`. -/
theorem c7_reconstruct_at_timestamp (f : RecoverableFile) (cutoff : String)
    (hs : List.Pairwise opKeyLe f.operations) :
    ((f.operations = [] ∨ ∀ op ∈ f.operations, pyStrLt cutoff op.timestamp = true) →
      reconstruct_at_timestamp f cutoff = none)
    ∧ ∀ (j : Nat) (hj : j < f.operations.length),
        pyStrLt cutoff (f.operations.get ⟨j, hj⟩).timestamp = false →
        (∀ (j' : Nat) (hj' : j' < f.operations.length), j < j' →
          pyStrLt cutoff (f.operations.get ⟨j', hj'⟩).timestamp = true) →
        reconstruct_at_timestamp f cutoff = reconstruct_file_at f.operations j := by
  have hsorted := timestamps_sorted_of_pairwise f.operations hs
  obtain ⟨hk1, hk2, hk3⟩ :=
    bisectRight_spec (f.operations.map (fun op => op.timestamp)) cutoff hsorted
  have hlen : (f.operations.map (fun op => op.timestamp)).length =
      f.operations.length := List.length_map _ _
  have hgetD : ∀ (k : Nat) (hk : k < f.operations.length),
      (f.operations.map (fun op => op.timestamp)).getD k "" =
        (f.operations.get ⟨k, hk⟩).timestamp := by
    intro k hk
    simp [List.getD_eq_getElem?_getD, List.getElem?_eq_getElem hk]
  constructor
  · intro h
    rcases h with hemp | hlate
    · simp [reconstruct_at_timestamp, hemp]
    · unfold reconstruct_at_timestamp
      by_cases hemp : f.operations = []
      · rw [if_pos hemp]
      · rw [if_neg hemp]
        have hn : 0 < f.operations.length := List.length_pos.mpr hemp
        have hk0 : bisectRight (f.operations.map (fun op => op.timestamp)) cutoff = 0 := by
          by_contra hne
          have h0 : (0 : Nat) <
              bisectRight (f.operations.map (fun op => op.timestamp)) cutoff := by
            omega
          have := hk2 0 h0
          rw [hgetD 0 hn] at this
          have hmem := hlate (f.operations.get ⟨0, hn⟩) (List.get_mem _ _ hn)
          rw [hmem] at this
          cases this
        rw [if_pos hk0]
  · intro j hj hle hlargest
    have hemp : ¬ f.operations = [] := by
      intro h
      rw [h] at hj
      simp at hj
    unfold reconstruct_at_timestamp
    rw [if_neg hemp]
    have hkj : bisectRight (f.operations.map (fun op => op.timestamp)) cutoff = j + 1 := by
      by_contra hne
      rcases Nat.lt_or_ge (bisectRight (f.operations.map (fun op => op.timestamp)) cutoff)
        (j + 1) with hlt | hge
      · have hup := hk3 j (by omega) (by rw [hlen]; exact hj)
        rw [hgetD j hj] at hup
        rw [hup] at hle
        cases hle
      · have hj1k : j + 1 <
            bisectRight (f.operations.map (fun op => op.timestamp)) cutoff := by
          omega
        have hj1n : j + 1 < f.operations.length := by
          rw [hlen] at hk1
          omega
        have hlow := hk2 (j + 1) hj1k
        rw [hgetD (j + 1) hj1n] at hlow
        have := hlargest (j + 1) hj1n (by omega)
        rw [this] at hlow
        cases hlow
    simp only [hkj]
    simp

/-- Scenario D operations: A@10, B@20, C@30. -/
def scenDOpA : FileOperation :=
  { type := OpType.writeCreate, file_path := "/f", timestamp := "10",
    session_id := "s", content := some "A" }
def scenDOpB : FileOperation :=
  { type := OpType.writeCreate, file_path := "/f", timestamp := "20",
    session_id := "s", content := some "B" }
def scenDOpC : FileOperation :=
  { type := OpType.writeCreate, file_path := "/f", timestamp := "30",
    session_id := "s", content := some "C" }
def scenDFile : RecoverableFile :=
  { path := "/f", operations := [scenDOpA, scenDOpB, scenDOpC] }

/-- Witness for C7: with operations at timestamps 10/20/30, cutoff `"15"`
replays only index 0 and cutoff `"05"` yields `none`. -/
theorem c7_witness :
    reconstruct_at_timestamp scenDFile "15" = reconstruct_file_at scenDFile.operations 0 ∧
    reconstruct_at_timestamp scenDFile "05" = none :=
  ⟨(c7_reconstruct_at_timestamp scenDFile "15" (by decide)).2 0 (by decide) (by decide)
    (by decide),
   (c7_reconstruct_at_timestamp scenDFile "05" (by decide)).1 (Or.inr (by decide))⟩

/-! ### Symlink merge preserves the operation multiset -/

/-- The multiset of all operations held by an index. -/
def opsMultiset (idx : List (String × RecoverableFile)) : Multiset FileOperation :=
  (idx.map (fun pr => (pr.2.operations : Multiset FileOperation))).sum

theorem opsMultiset_nil : opsMultiset [] = 0 := rfl

theorem opsMultiset_cons (pr : String × RecoverableFile)
    (rest : List (String × RecoverableFile)) :
    opsMultiset (pr :: rest) = (pr.2.operations : Multiset FileOperation) + opsMultiset rest := by
  simp [opsMultiset]

theorem opsMultiset_addOpsToIndex (idx : List (String × RecoverableFile))
    (key : String) (ops : List FileOperation) :
    opsMultiset (addOpsToIndex idx key ops) = opsMultiset idx + (ops : Multiset FileOperation) := by
  induction idx with
  | nil => simp [addOpsToIndex, opsMultiset]
  | cons pr rest ih =>
    obtain ⟨k, rf⟩ := pr
    by_cases hk : k = key
    · rw [show addOpsToIndex ((k, rf) :: rest) key ops =
          (k, { rf with operations := rf.operations ++ ops }) :: rest from by
        simp [addOpsToIndex, hk]]
      rw [opsMultiset_cons, opsMultiset_cons]
      simp only []
      rw [show ((rf.operations ++ ops : List FileOperation) : Multiset FileOperation) =
        (rf.operations : Multiset FileOperation) + (ops : Multiset FileOperation) from by
        simp]
      rw [add_assoc, add_comm (ops : Multiset FileOperation) (opsMultiset rest), ← add_assoc]
    · rw [show addOpsToIndex ((k, rf) :: rest) key ops =
          (k, rf) :: addOpsToIndex rest key ops from by
        simp [addOpsToIndex, hk]]
      rw [opsMultiset_cons, opsMultiset_cons, ih, add_assoc]

theorem opsMultiset_mergeFold (groups : List SymlinkGroup) :
    ∀ (entries acc : List (String × RecoverableFile)),
      opsMultiset (entries.foldl (mergeStep groups) acc) =
        opsMultiset acc +
          (entries.map (fun pr =>
            ((pr.2.operations.map (setSourcePath
              (resolve_path (sortedAliases groups) (aliasToCanonical groups) pr.1).2)) :
              Multiset FileOperation))).sum := by
  intro entries
  induction entries with
  | nil => intro acc; simp
  | cons pr rest ih =>
    intro acc
    rw [List.foldl_cons, ih, List.map_cons, List.sum_cons]
    rw [show mergeStep groups acc pr = addOpsToIndex acc
        (resolve_path (sortedAliases groups) (aliasToCanonical groups) pr.1).1
        (pr.2.operations.map (setSourcePath
          (resolve_path (sortedAliases groups) (aliasToCanonical groups) pr.1).2)) from rfl]
    rw [opsMultiset_addOpsToIndex]
    abel

theorem opsMultiset_sortEntries (idx : List (String × RecoverableFile)) :
    opsMultiset (idx.map (fun pr =>
      (pr.1, { pr.2 with operations := sortOpsByKey pr.2.operations }))) = opsMultiset idx := by
  induction idx with
  | nil => rfl
  | cons pr rest ih =>
    rw [List.map_cons, opsMultiset_cons, opsMultiset_cons, ih]
    congr 1
    exact Multiset.coe_eq_coe.mpr (List.mergeSort_perm _ _)

theorem card_opsMultiset (idx : List (String × RecoverableFile)) :
    Multiset.card (opsMultiset idx) =
      (idx.map (fun pr => pr.2.operations.length)).sum := by
  induction idx with
  | nil => rfl
  | cons pr rest ih =>
    rw [opsMultiset_cons, List.map_cons, List.sum_cons, Multiset.card_add,
      Multiset.coe_card, ih]

theorem find?_longest_match (path : String) :
    ∀ (l : List String),
      List.Pairwise (fun a b => (decide (b.length ≤ a.length)) = true) l →
      ∀ al, l.find? (fun x => aliasMatches x path) = some al →
        aliasMatches al path = true ∧
        ∀ a ∈ l, aliasMatches a path = true → a.length ≤ al.length := by
  intro l
  induction l with
  | nil => intro _ al h; cases h
  | cons hd t ih =>
    intro hp al hfind
    by_cases hm : aliasMatches hd path = true
    · simp only [List.find?_cons, hm] at hfind
      obtain rfl : hd = al := Option.some.inj hfind
      refine ⟨hm, ?_⟩
      intro a ha hmatch
      rcases List.mem_cons.mp ha with rfl | hat
      · exact le_refl _
      · have := (List.pairwise_cons.mp hp).1 a hat
        exact of_decide_eq_true this
    · have hmf : aliasMatches hd path = false := by simpa using hm
      simp only [List.find?_cons, hmf] at hfind
      obtain ⟨hal, hrest⟩ := ih (List.pairwise_cons.mp hp).2 al hfind
      refine ⟨hal, ?_⟩
      intro a ha hmatch
      rcases List.mem_cons.mp ha with rfl | hat
      · exact absurd hmatch hm
      · exact hrest a hat hmatch

theorem card_listSum (l : List (Multiset FileOperation)) :
    Multiset.card l.sum = (l.map Multiset.card).sum := by
  induction l with
  | nil => rfl
  | cons m rest ih => simp [ih]

/-- C8: `merge_file_index` preserves the multiset of operations — the merged
index holds exactly the raw index's operations with `source_path` set to the
operation's original timeline path precisely when that path was rewritten
through an alias (so the total operation count is unchanged and nothing is
dropped or duplicated) — and the alias chosen by `resolve_path` is a longest
matching one.  The embedding is pure, so the raw input index value is left
untouched by construction. -/
theorem c8_symlink_merge_preserves_operations
    (file_index : List (String × RecoverableFile)) (groups : List SymlinkGroup) :
    opsMultiset (merge_file_index file_index groups) =
      (file_index.map (fun pr =>
        ((pr.2.operations.map (setSourcePath
          (resolve_path (sortedAliases groups) (aliasToCanonical groups) pr.1).2)) :
          Multiset FileOperation))).sum
    ∧ ((merge_file_index file_index groups).map (fun pr => pr.2.operations.length)).sum =
        (file_index.map (fun pr => pr.2.operations.length)).sum
    ∧ (∀ (path al : String),
        (sortedAliases groups).find? (fun x => aliasMatches x path) = some al →
        aliasMatches al path = true ∧
        ∀ a ∈ sortedAliases groups, aliasMatches a path = true →
          a.length ≤ al.length) := by
  have h1 : opsMultiset (merge_file_index file_index groups) =
      (file_index.map (fun pr =>
        ((pr.2.operations.map (setSourcePath
          (resolve_path (sortedAliases groups) (aliasToCanonical groups) pr.1).2)) :
          Multiset FileOperation))).sum := by
    unfold merge_file_index
    rw [opsMultiset_sortEntries, opsMultiset_mergeFold groups file_index []]
    rw [opsMultiset_nil, zero_add]
  refine ⟨h1, ?_, ?_⟩
  · have hcard := congrArg Multiset.card h1
    rw [card_opsMultiset, card_listSum] at hcard
    rw [hcard]
    congr 1
    rw [List.map_map]
    apply List.map_congr_left
    intro pr _
    simp
  · intro path al hfind
    have htrans : ∀ (a b c : String), (decide (b.length ≤ a.length)) = true →
        (decide (c.length ≤ b.length)) = true →
        (decide (c.length ≤ a.length)) = true := by
      intro a b c hab hbc
      simp only [decide_eq_true_eq] at hab hbc ⊢
      omega
    have htotal : ∀ (a b : String),
        ((decide (b.length ≤ a.length)) || (decide (a.length ≤ b.length))) = true := by
      intro a b
      simp only [Bool.or_eq_true, decide_eq_true_eq]
      omega
    have hsorted := List.sorted_mergeSort htrans htotal (dictKeys (aliasToCanonical groups))
    exact find?_longest_match path (sortedAliases groups) hsorted al hfind

/-- Scenario E symlink group: `/tmp/p` is an alias of `/private/tmp/p`. -/
def scenEGroup : SymlinkGroup := { canonical := "/private/tmp/p", aliases := ["/tmp/p"] }

/-- On Scenario E the sorted alias list is just `["/tmp/p"]`. -/
theorem scenE_sortedAliases : sortedAliases [scenEGroup] = ["/tmp/p"] := by
  unfold sortedAliases
  rw [show dictKeys (aliasToCanonical [scenEGroup]) = ["/tmp/p"] from rfl]
  rw [List.mergeSort_singleton]

/-- Scenario E: one operation seen through the alias path. -/
def scenEOpAlias : FileOperation :=
  { type := OpType.writeCreate, file_path := "/tmp/p/a.txt", timestamp := "20",
    session_id := "s1", content := some "A" }

/-- Scenario E: two operations seen through the canonical path. -/
def scenEOpCan1 : FileOperation :=
  { type := OpType.writeCreate, file_path := "/private/tmp/p/a.txt",
    timestamp := "10", session_id := "s1", content := some "B" }

/-- Scenario E: second canonical-path operation. -/
def scenEOpCan2 : FileOperation :=
  { type := OpType.writeCreate, file_path := "/private/tmp/p/a.txt",
    timestamp := "30", session_id := "s1", content := some "C" }

/-- Scenario E raw index: the alias timeline and the canonical timeline. -/
def scenERawIdx : List (String × RecoverableFile) :=
  [("/tmp/p/a.txt", { path := "/tmp/p/a.txt", operations := [scenEOpAlias] }),
   ("/private/tmp/p/a.txt",
     { path := "/private/tmp/p/a.txt", operations := [scenEOpCan1, scenEOpCan2] })]

/-- Witness for C8: on Scenario E the operation count is preserved and the
alias found for the aliased path is a longest match. -/
theorem c8_witness :
    ((merge_file_index scenERawIdx [scenEGroup]).map
        (fun pr => pr.2.operations.length)).sum =
      (scenERawIdx.map (fun pr => pr.2.operations.length)).sum ∧
    (aliasMatches "/tmp/p" "/tmp/p/a.txt" = true ∧
      ∀ a ∈ sortedAliases [scenEGroup], aliasMatches a "/tmp/p/a.txt" = true →
        a.length ≤ ("/tmp/p" : String).length) :=
  ⟨(c8_symlink_merge_preserves_operations scenERawIdx [scenEGroup]).2.1,
   (c8_symlink_merge_preserves_operations scenERawIdx [scenEGroup]).2.2
     "/tmp/p/a.txt" "/tmp/p" (by rw [scenE_sortedAliases]; decide)⟩

/-! ### Lemmas for the injection stripper -/

theorem isPrefixOf_self_append : ∀ (t b : List Char), t.isPrefixOf (t ++ b) = true := by
  intro t
  induction t with
  | nil => intro b; simp [List.isPrefixOf]
  | cons c cs ih =>
    intro b
    simp only [List.cons_append, List.isPrefixOf]
    simp [ih]

theorem isPrefixOf_length_le : ∀ (t s : List Char), t.isPrefixOf s = true → t.length ≤ s.length := by
  intro t
  induction t with
  | nil => intro s _; simp
  | cons c cs ih =>
    intro s h
    cases s with
    | nil => cases h
    | cons d ds =>
      simp only [List.isPrefixOf, Bool.and_eq_true, beq_iff_eq] at h
      simp only [List.length_cons]
      exact Nat.succ_le_succ (ih ds h.2)

theorem rstripChars_append_exists (l : List Char) :
    ∃ u, l = rstripChars l ++ u ∧ ∀ c ∈ u, pyIsSpace c = true := by
  refine ⟨(l.reverse.takeWhile pyIsSpace).reverse, ?_, ?_⟩
  · unfold rstripChars
    conv_lhs => rw [← l.reverse_reverse]
    rw [← List.reverse_append]
    congr 1
    rw [List.takeWhile_append_dropWhile]
  · intro c hc
    rw [List.mem_reverse] at hc
    exact List.mem_takeWhile_imp hc

theorem stripChars_decomp (l : List Char) :
    ∃ u v, l = u ++ stripChars l ++ v ∧
      (∀ c ∈ u, pyIsSpace c = true) ∧ (∀ c ∈ v, pyIsSpace c = true) := by
  obtain ⟨v, hv, hvs⟩ := rstripChars_append_exists l
  refine ⟨(rstripChars l).takeWhile pyIsSpace, v, ?_, ?_, hvs⟩
  · unfold stripChars
    conv_lhs => rw [hv]
    congr 1
    rw [List.takeWhile_append_dropWhile]
  · intro c hc
    exact List.mem_takeWhile_imp hc

theorem splitNl_ne_nil : ∀ (l : List Char), splitNl l ≠ [] := by
  intro l
  cases l with
  | nil => simp [splitNl]
  | cons c rest =>
    simp only [splitNl]
    cases h : splitNl rest with
    | nil => simp
    | cons g gs =>
      by_cases hc : c = '\n' <;> simp [hc]

theorem joinNl_splitNl : ∀ (l : List Char), joinNl (splitNl l) = l := by
  intro l
  induction l with
  | nil => rfl
  | cons c rest ih =>
    rw [show splitNl (c :: rest) = (match splitNl rest with
      | [] => [[]]
      | g :: gs => if c = '\n' then [] :: g :: gs else (c :: g) :: gs) from rfl]
    cases h : splitNl rest with
    | nil => exact absurd h (splitNl_ne_nil rest)
    | cons g gs =>
      rw [h] at ih
      change joinNl (if c = '\n' then [] :: g :: gs else (c :: g) :: gs) = c :: rest
      by_cases hc : c = '\n'
      · rw [if_pos hc]
        subst hc
        simp only [joinNl]
        rw [ih]
        rfl
      · rw [if_neg hc]
        cases gs with
        | nil =>
          simp only [joinNl] at ih ⊢
          rw [ih]
        | cons g2 gs2 =>
          simp only [joinNl] at ih ⊢
          rw [List.cons_append, ih]

theorem joinNl_drop_exists : ∀ (s : Nat) (gs : List (List Char)),
    ∃ u, joinNl gs = u ++ joinNl (gs.drop s) := by
  intro s
  induction s with
  | zero => intro gs; exact ⟨[], rfl⟩
  | succ s ih =>
    intro gs
    cases gs with
    | nil => exact ⟨[], rfl⟩
    | cons g gs' =>
      obtain ⟨u, hu⟩ := ih gs'
      cases gs' with
      | nil =>
        refine ⟨g, ?_⟩
        simp [joinNl, List.drop_nil]
      | cons g2 gs2 =>
        refine ⟨g ++ '\n' :: u, ?_⟩
        simp only [joinNl, List.drop_succ_cons]
        rw [List.append_assoc, List.cons_append]
        rw [← hu]

theorem joinNl_take_exists : ∀ (k : Nat) (gs : List (List Char)),
    ∃ u, joinNl gs = joinNl (gs.take k) ++ u := by
  intro k
  induction k with
  | zero => intro gs; exact ⟨joinNl gs, rfl⟩
  | succ k ih =>
    intro gs
    cases gs with
    | nil => exact ⟨[], rfl⟩
    | cons g gs' =>
      obtain ⟨u, hu⟩ := ih gs'
      cases gs' with
      | nil => exact ⟨[], by simp [joinNl]⟩
      | cons g2 gs2 =>
        cases hk : (g2 :: gs2).take k with
        | nil =>
          refine ⟨'\n' :: joinNl (g2 :: gs2), ?_⟩
          simp [joinNl, hk]
        | cons h2 t2 =>
          refine ⟨u, ?_⟩
          simp only [List.take_succ_cons, hk, joinNl] at hu ⊢
          rw [← hk] at hu ⊢
          rw [List.append_assoc, List.cons_append, ← hu]

theorem rfindSubAux_some_prefix (s pat : List Char) :
    ∀ n i, rfindSubAux s pat n = some i → pat.isPrefixOf (s.drop i) = true := by
  intro n
  induction n with
  | zero =>
    intro i h
    unfold rfindSubAux at h
    by_cases hp : pat.isPrefixOf s = true
    · rw [if_pos hp] at h
      obtain rfl : (0 : Nat) = i := Option.some.inj h
      simpa using hp
    · rw [if_neg hp] at h
      cases h
  | succ n ih =>
    intro i h
    unfold rfindSubAux at h
    by_cases hp : pat.isPrefixOf (s.drop (n + 1)) = true
    · rw [if_pos hp] at h
      obtain rfl : n + 1 = i := Option.some.inj h
      exact hp
    · rw [if_neg hp] at h
      exact ih i h

theorem rfindSubAux_isSome (s pat : List Char) :
    ∀ n, (∃ i, i ≤ n ∧ pat.isPrefixOf (s.drop i) = true) →
      ∃ j, rfindSubAux s pat n = some j := by
  intro n
  induction n with
  | zero =>
    rintro ⟨i, hi, hp⟩
    obtain rfl : i = 0 := Nat.le_zero.mp hi
    rw [List.drop_zero] at hp
    exact ⟨0, by unfold rfindSubAux; rw [if_pos hp]⟩
  | succ n ih =>
    rintro ⟨i, hi, hp⟩
    by_cases hq : pat.isPrefixOf (s.drop (n + 1)) = true
    · refine ⟨n + 1, ?_⟩
      rw [show rfindSubAux s pat (n + 1) =
        (if pat.isPrefixOf (s.drop (n + 1)) = true then some (n + 1)
         else rfindSubAux s pat n) from rfl]
      rw [if_pos hq]
    · have hres : rfindSubAux s pat (n + 1) = rfindSubAux s pat n := by
        rw [show rfindSubAux s pat (n + 1) =
          (if pat.isPrefixOf (s.drop (n + 1)) = true then some (n + 1)
           else rfindSubAux s pat n) from rfl]
        rw [if_neg hq]
      rw [hres]
      apply ih
      rcases Nat.lt_or_ge i (n + 1) with h | h
      · exact ⟨i, by omega, hp⟩
      · obtain rfl : i = n + 1 := by omega
        exact absurd hp hq

theorem mem_joinNl : ∀ (gs : List (List Char)) (g : List Char) (x : Char),
    g ∈ gs → x ∈ g → x ∈ joinNl gs := by
  intro gs
  induction gs with
  | nil => intro g x hg _; cases hg
  | cons g0 gs' ih =>
    intro g x hg hx
    rcases List.mem_cons.mp hg with rfl | hg'
    · cases gs' with
      | nil => exact hx
      | cons g2 gs2 =>
        simp only [joinNl]
        exact List.mem_append_left _ hx
    · cases gs' with
      | nil => cases hg'
      | cons g2 gs2 =>
        simp only [joinNl]
        refine List.mem_append_right _ ?_
        exact List.mem_cons_of_mem _ (ih g x hg' hx)

theorem dropWhile_head_false : ∀ (p : Char → Bool) (l : List Char) (a : Char)
    (t : List Char), l.dropWhile p = a :: t → p a = false := by
  intro p l
  induction l with
  | nil => intro a t h; cases h
  | cons c rest ih =>
    intro a t h
    by_cases hc : p c = true
    · rw [List.dropWhile_cons_of_pos hc] at h
      exact ih a t h
    · rw [List.dropWhile_cons_of_neg hc] at h
      obtain ⟨rfl, -⟩ := List.cons.inj h
      simpa using hc

theorem stripChars_ne_nil_of_nonspace (l : List Char)
    (h : ∃ ch ∈ l, pyIsSpace ch = false) : stripChars l ≠ [] := by
  obtain ⟨ch, hmem, hns⟩ := h
  intro hnil
  obtain ⟨u, v, hdecomp, hu, hv⟩ := stripChars_decomp l
  rw [hnil, List.append_nil] at hdecomp
  rw [hdecomp] at hmem
  rcases List.mem_append.mp hmem with h1 | h2
  · rw [hu ch h1] at hns; cases hns
  · rw [hv ch h2] at hns; cases hns

theorem nonspace_of_stripChars_ne_nil (l : List Char)
    (h : stripChars l ≠ []) : ∃ ch ∈ l, pyIsSpace ch = false := by
  cases hs : stripChars l with
  | nil => exact absurd hs h
  | cons a t =>
    have hpa : pyIsSpace a = false := dropWhile_head_false pyIsSpace (rstripChars l) a t hs
    obtain ⟨u, v, hdecomp, -, -⟩ := stripChars_decomp l
    refine ⟨a, ?_, hpa⟩
    rw [hdecomp, hs]
    exact List.mem_append_left _ (List.mem_append_right _ (by simp))

theorem lastNonBlankAux_spec (lines : List String) :
    ∀ n e, lastNonBlankAux lines n = some e →
      e < n ∧ stripStr (lines.getD e "") ≠ "" := by
  intro n
  induction n with
  | zero => intro e h; cases h
  | succ n ih =>
    intro e h
    unfold lastNonBlankAux at h
    by_cases hb : stripStr (lines.getD n "") ≠ ""
    · rw [if_pos hb] at h
      obtain rfl : n = e := Option.some.inj h
      exact ⟨by omega, hb⟩
    · rw [if_neg hb] at h
      obtain ⟨h1, h2⟩ := ih e h
      exact ⟨by omega, h2⟩

theorem findStartAux_le (lines : List String) :
    ∀ e, findStartAux lines e ≤ e := by
  intro e
  induction e with
  | zero => exact le_refl _
  | succ e ih =>
    unfold findStartAux
    by_cases hb : stripStr (lines.getD e "") ≠ ""
    · rw [if_pos hb]
      omega
    · rw [if_neg hb]

theorem getD_mem_drop_take (lines : List String) (s e : Nat)
    (hse : s ≤ e) (he : e < lines.length) :
    lines.getD e "" ∈ (lines.drop s).take (e + 1 - s) := by
  have hlen : ((lines.drop s).take (e + 1 - s)).length = min (e + 1 - s) (lines.length - s) := by
    simp [List.length_take, List.length_drop]
  have hidx : e - s < ((lines.drop s).take (e + 1 - s)).length := by
    rw [hlen]
    omega
  have hval : ((lines.drop s).take (e + 1 - s)).get ⟨e - s, hidx⟩ = lines.getD e "" := by
    simp only [List.get_eq_getElem]
    rw [List.getElem_take, List.getElem_drop, List.getD_eq_getElem lines "" he]
    congr 1
    omega
  rw [← hval]
  exact List.get_mem _ _ _

theorem extract_trailing_block_spec (c t : String)
    (h : extract_trailing_block c = some t) :
    ∃ e,
      lastNonBlankAux (splitNlStr (rstripStr c)) (splitNlStr (rstripStr c)).length
        = some e ∧
      findStartAux (splitNlStr (rstripStr c)) e ≠ 0 ∧
      t = stripStr (joinNlStr (((splitNlStr (rstripStr c)).drop
        (findStartAux (splitNlStr (rstripStr c)) e)).take
          (e + 1 - findStartAux (splitNlStr (rstripStr c)) e))) := by
  simp only [extract_trailing_block] at h
  cases he : lastNonBlankAux (splitNlStr (rstripStr c)) (splitNlStr (rstripStr c)).length with
  | none =>
    rw [he] at h
    exact Option.noConfusion h
  | some e =>
    rw [he] at h
    replace h : (if findStartAux (splitNlStr (rstripStr c)) e = 0 then none
      else if stripStr ((splitNlStr (rstripStr c)).getD
          (findStartAux (splitNlStr (rstripStr c)) e - 1) "") ≠ "" then none
      else some (stripStr (joinNlStr (((splitNlStr (rstripStr c)).drop
        (findStartAux (splitNlStr (rstripStr c)) e)).take
          (e + 1 - findStartAux (splitNlStr (rstripStr c)) e))))) = some t := h
    by_cases hs : findStartAux (splitNlStr (rstripStr c)) e = 0
    · rw [if_pos hs] at h
      exact Option.noConfusion h
    · rw [if_neg hs] at h
      by_cases hb : stripStr ((splitNlStr (rstripStr c)).getD
          (findStartAux (splitNlStr (rstripStr c)) e - 1) "") ≠ ""
      · rw [if_pos hb] at h
        exact Option.noConfusion h
      · rw [if_neg hb] at h
        exact ⟨e, rfl, hs, (Option.some.inj h).symm⟩

theorem mk_data_map (l : List (List Char)) :
    List.map String.data (List.map String.mk l) = l := by
  rw [List.map_map]
  have h : (String.data ∘ String.mk) = id := by
    funext x
    rfl
  rw [h, List.map_id]

theorem extract_trailing_block_ne_empty (c t : String)
    (h : extract_trailing_block c = some t) : t ≠ "" := by
  obtain ⟨e, he, hs, ht⟩ := extract_trailing_block_spec c t h
  obtain ⟨helt, hene⟩ := lastNonBlankAux_spec (splitNlStr (rstripStr c)) _ e he
  have hse : findStartAux (splitNlStr (rstripStr c)) e ≤ e := findStartAux_le _ e
  have hmem := getD_mem_drop_take (splitNlStr (rstripStr c))
    (findStartAux (splitNlStr (rstripStr c)) e) e hse helt
  have hnn : stripChars ((splitNlStr (rstripStr c)).getD e "").data ≠ [] := by
    intro hh
    apply hene
    show String.mk (stripChars ((splitNlStr (rstripStr c)).getD e "").data) = ""
    rw [hh]
  obtain ⟨ch, hchmem, hchns⟩ := nonspace_of_stripChars_ne_nil _ hnn
  have hchjoin : ch ∈ joinNl (List.map String.data
      (((splitNlStr (rstripStr c)).drop
        (findStartAux (splitNlStr (rstripStr c)) e)).take
          (e + 1 - findStartAux (splitNlStr (rstripStr c)) e))) := by
    apply mem_joinNl _ ((splitNlStr (rstripStr c)).getD e "").data ch
    · exact List.mem_map_of_mem _ hmem
    · exact hchmem
  intro hteq
  have hdata : t.data = stripChars (joinNl (List.map String.data
      (((splitNlStr (rstripStr c)).drop
        (findStartAux (splitNlStr (rstripStr c)) e)).take
          (e + 1 - findStartAux (splitNlStr (rstripStr c)) e)))) := by
    rw [ht]
    rfl
  rw [hteq] at hdata
  exact stripChars_ne_nil_of_nonspace _ ⟨ch, hchjoin, hchns⟩ hdata.symm

theorem extract_trailing_block_infix (c t : String)
    (h : extract_trailing_block c = some t) :
    ∃ a b, c.data = a ++ t.data ++ b := by
  obtain ⟨e, he, hs, ht⟩ := extract_trailing_block_spec c t h
  have hlines : List.map String.data (splitNlStr (rstripStr c)) =
      splitNl (rstripChars c.data) := by
    unfold splitNlStr
    rw [mk_data_map]
    rfl
  have hslice : List.map String.data (((splitNlStr (rstripStr c)).drop
      (findStartAux (splitNlStr (rstripStr c)) e)).take
        (e + 1 - findStartAux (splitNlStr (rstripStr c)) e)) =
      ((splitNl (rstripChars c.data)).drop
        (findStartAux (splitNlStr (rstripStr c)) e)).take
          (e + 1 - findStartAux (splitNlStr (rstripStr c)) e) := by
    rw [List.map_take, List.map_drop, hlines]
  have htdata : t.data = stripChars (joinNl (((splitNl (rstripChars c.data)).drop
      (findStartAux (splitNlStr (rstripStr c)) e)).take
        (e + 1 - findStartAux (splitNlStr (rstripStr c)) e))) := by
    rw [ht]
    show stripChars (joinNl (List.map String.data
      (((splitNlStr (rstripStr c)).drop
        (findStartAux (splitNlStr (rstripStr c)) e)).take
          (e + 1 - findStartAux (splitNlStr (rstripStr c)) e)))) = _
    rw [hslice]
  obtain ⟨u1, hu1⟩ := joinNl_drop_exists (findStartAux (splitNlStr (rstripStr c)) e)
    (splitNl (rstripChars c.data))
  obtain ⟨u2, hu2⟩ := joinNl_take_exists
    (e + 1 - findStartAux (splitNlStr (rstripStr c)) e)
    ((splitNl (rstripChars c.data)).drop (findStartAux (splitNlStr (rstripStr c)) e))
  obtain ⟨w1, w2, hw, -, -⟩ := stripChars_decomp
    (joinNl (((splitNl (rstripChars c.data)).drop
      (findStartAux (splitNlStr (rstripStr c)) e)).take
        (e + 1 - findStartAux (splitNlStr (rstripStr c)) e)))
  obtain ⟨u0, hu0, -⟩ := rstripChars_append_exists c.data
  refine ⟨u1 ++ w1, w2 ++ u2 ++ u0, ?_⟩
  conv_lhs => rw [hu0]
  have hr : rstripChars c.data = joinNl (splitNl (rstripChars c.data)) :=
    (joinNl_splitNl _).symm
  rw [hr, hu1, hu2, hw, ← htdata]
  simp [List.append_assoc]

theorem stripOpContent_of_some (pats : List String) (c t : String)
    (h : extract_trailing_block c = some t) :
    stripOpContent pats c =
      (if t = "" then c
       else if t ∈ pats then
         match rfindSub c.data t.data with
         | some i => rstripStr (String.mk (c.data.take i))
         | none => c
       else c) := by
  unfold stripOpContent
  rw [h]

theorem stripOpContent_of_none (pats : List String) (c : String)
    (h : extract_trailing_block c = none) : stripOpContent pats c = c := by
  unfold stripOpContent
  rw [h]

theorem data_ne_nil_of_ne_empty (t : String) (h : t ≠ "") : t.data ≠ [] := by
  intro hd
  apply h
  cases t
  simp_all

theorem stripOpContent_data_prefix (pats : List String) (c : String) :
    ∃ u, c.data = (stripOpContent pats c).data ++ u := by
  cases hx : extract_trailing_block c with
  | none =>
    rw [stripOpContent_of_none pats c hx]
    exact ⟨[], by simp⟩
  | some t =>
    rw [stripOpContent_of_some pats c t hx]
    by_cases ht0 : t = ""
    · rw [if_pos ht0]
      exact ⟨[], by simp⟩
    · rw [if_neg ht0]
      by_cases htp : t ∈ pats
      · rw [if_pos htp]
        cases hf : rfindSub c.data t.data with
        | none => exact ⟨[], by simp⟩
        | some i =>
          simp only []
          obtain ⟨w, hw, -⟩ := rstripChars_append_exists (c.data.take i)
          refine ⟨w ++ c.data.drop i, ?_⟩
          show c.data = rstripChars (c.data.take i) ++ (w ++ c.data.drop i)
          conv_lhs => rw [← List.take_append_drop i c.data]
          rw [← List.append_assoc, ← hw]
      · rw [if_neg htp]
        exact ⟨[], by simp⟩

/-- C9: `strip_injected_content` never introduces characters.  The files-level
pass maps `stripInjOp` over Read operations with nonempty content; the per-op
result's content is always a prefix of the previous content; a Read whose
trailing block is absent or matches no reported pattern is left unchanged;
and a Read whose trailing block matches a reported pattern is truncated at
the last occurrence of the block and right-trimmed, which strictly changes
the content. -/
theorem c9_injection_stripping :
    (∀ (files : List (String × RecoverableFile)) (patterns : List InjectedContentPattern),
      strip_injected_content files patterns =
        if patterns = [] then files
        else files.map (fun pr =>
          (pr.1,
            { pr.2 with
              operations := pr.2.operations.map
                (stripInjOp (patterns.map (fun p => p.content))) })))
    ∧ (∀ (pats : List String) (c : String),
        ∃ u, c.data = (stripOpContent pats c).data ++ u)
    ∧ (∀ (pats : List String) (op : FileOperation) (c' : String),
        (stripInjOp pats op).content = some c' →
        ∃ c u, op.content = some c ∧ c.data = c'.data ++ u)
    ∧ (∀ (pats : List String) (c : String),
        extract_trailing_block c = none → stripOpContent pats c = c)
    ∧ (∀ (pats : List String) (c t : String),
        extract_trailing_block c = some t → t ∉ pats → stripOpContent pats c = c)
    ∧ (∀ (pats : List String) (c t : String),
        extract_trailing_block c = some t → t ∈ pats →
        ∃ i, rfindSub c.data t.data = some i ∧
          stripOpContent pats c = rstripStr (String.mk (c.data.take i)) ∧
          stripOpContent pats c ≠ c) := by
  refine ⟨fun files patterns => rfl, stripOpContent_data_prefix, ?_,
    stripOpContent_of_none, ?_, ?_⟩
  · intro pats op c' h
    by_cases ht : op.type = OpType.read
    · cases hc : op.content with
      | none =>
        have hop : stripInjOp pats op = op := by
          simp [stripInjOp, ht, hc]
        rw [hop, hc] at h
        exact Option.noConfusion h
      | some c =>
        by_cases hc0 : c = ""
        · have hop : stripInjOp pats op = op := by
            simp [stripInjOp, ht, hc, hc0]
          rw [hop, hc] at h
          have hcc : c = c' := Option.some.inj h
          exact ⟨c, [], rfl, by rw [← hcc]; simp⟩
        · have hop : stripInjOp pats op =
              { op with content := some (stripOpContent pats c) } := by
            simp [stripInjOp, ht, hc, hc0]
          rw [hop] at h
          have hcc : stripOpContent pats c = c' := Option.some.inj h
          obtain ⟨u, hu⟩ := stripOpContent_data_prefix pats c
          exact ⟨c, u, rfl, by rw [← hcc]; exact hu⟩
    · have hop : stripInjOp pats op = op := by
        simp [stripInjOp, ht]
      rw [hop] at h
      exact ⟨c', [], h, by simp⟩
  · intro pats c t hx htp
    rw [stripOpContent_of_some pats c t hx]
    by_cases ht0 : t = ""
    · rw [if_pos ht0]
    · rw [if_neg ht0, if_neg htp]
  · intro pats c t hx htp
    have htne := extract_trailing_block_ne_empty c t hx
    obtain ⟨a, b, hab⟩ := extract_trailing_block_infix c t hx
    have hpre0 : t.data.isPrefixOf (c.data.drop a.length) = true := by
      rw [hab, List.append_assoc, List.drop_left]
      exact isPrefixOf_self_append _ _
    have halen : a.length ≤ c.data.length := by
      conv_rhs => rw [hab]
      simp [List.length_append]
    obtain ⟨j, hj⟩ := rfindSubAux_isSome c.data t.data c.data.length
      ⟨a.length, halen, hpre0⟩
    have hjpre : t.data.isPrefixOf (c.data.drop j) = true :=
      rfindSubAux_some_prefix c.data t.data c.data.length j hj
    have htlen : 1 ≤ t.data.length := by
      have hne := data_ne_nil_of_ne_empty t htne
      cases htd : t.data with
      | nil => exact absurd htd hne
      | cons x xs => simp
    have hjlt : j < c.data.length := by
      have h1 := isPrefixOf_length_le t.data (c.data.drop j) hjpre
      rw [List.length_drop] at h1
      omega
    have hres : stripOpContent pats c = rstripStr (String.mk (c.data.take j)) := by
      rw [stripOpContent_of_some pats c t hx, if_neg htne, if_pos htp]
      show (match rfindSub c.data t.data with
        | some i => rstripStr (String.mk (c.data.take i))
        | none => c) = _
      rw [show rfindSub c.data t.data = rfindSubAux c.data t.data c.data.length from rfl,
        hj]
    refine ⟨j, hj, hres, ?_⟩
    intro heqc
    obtain ⟨w, hw, -⟩ := rstripChars_append_exists (c.data.take j)
    have hlen1 : (rstripChars (c.data.take j)).length ≤ j := by
      have hlw := congrArg List.length hw
      simp [List.length_append, List.length_take] at hlw
      omega
    have hdata : (stripOpContent pats c).data = rstripChars (c.data.take j) := by
      rw [hres]
      rfl
    rw [heqc] at hdata
    have hfin := congrArg List.length hdata
    omega

/-- A Read whose trailing block is `"INJ"`. -/
def injReadOp : FileOperation :=
  { type := OpType.read, file_path := "/f", timestamp := "10", session_id := "s",
    content := some "line1\n\nINJ" }

/-- Witness for C9: each conjunct of `c9_injection_stripping` applied at a
concrete Read content. -/
theorem c9_witness :
    (∃ u, ("line1\n\nINJ" : String).data =
      (stripOpContent ["INJ"] "line1\n\nINJ").data ++ u) ∧
    (∃ c u, injReadOp.content = some c ∧
      c.data = ((stripInjOp ["INJ"] injReadOp).content.getD "").data ++ u) ∧
    stripOpContent ["INJ"] "oneblock" = "oneblock" ∧
    stripOpContent ["NOPE"] "line1\n\nINJ" = "line1\n\nINJ" ∧
    (∃ i, rfindSub ("line1\n\nINJ" : String).data ("INJ" : String).data = some i ∧
      stripOpContent ["INJ"] "line1\n\nINJ" =
        rstripStr (String.mk (("line1\n\nINJ" : String).data.take i)) ∧
      stripOpContent ["INJ"] "line1\n\nINJ" ≠ "line1\n\nINJ") :=
  ⟨c9_injection_stripping.2.1 ["INJ"] "line1\n\nINJ",
   c9_injection_stripping.2.2.1 ["INJ"] injReadOp
     ((stripInjOp ["INJ"] injReadOp).content.getD "") (by decide),
   c9_injection_stripping.2.2.2.1 ["INJ"] "oneblock" (by decide),
   c9_injection_stripping.2.2.2.2.1 ["NOPE"] "line1\n\nINJ" "INJ" (by decide) (by decide),
   c9_injection_stripping.2.2.2.2.2 ["INJ"] "line1\n\nINJ" "INJ" (by decide) (by decide)⟩

end ClaudeRecovery
